import Mathlib

/-!
Verification of the PixelPad repository manager (`pixelpad/note_manager.py`,
with the notebook-move entry point `_handle_notebook_move_requested` of
`pixelpad/main_window.py`).

The embedding is shallow:

* Python `str` values are modelled as `List Char` (`Str`), so that Python
  slicing, `startswith`, `lstrip` and concatenation become the corresponding
  total list functions.
* Python `dict` objects (the color-metadata mappings) are modelled as
  insertion-ordered association lists with unique keys; `mapSet`, `mapErase`
  and `mapUpdate` mirror `d[k] = v`, `d.pop(k)` and `d.update(u)`.
* Filesystem paths are modelled in canonical form as lists of name components
  (`CanonPath`); `Path.resolve()` becomes `normComps` (symlinks are not
  modelled: the filesystem model below has no symlink nodes, and on a
  symlink-free tree `resolve()` is exactly absolutization plus `.`/`..`
  normalization).  `Path.relative_to` succeeds exactly when the base is a
  component-wise leading segment, which is `isStart`.
* The filesystem is an association list from canonical paths to nodes
  (file with contents, or directory).
* Exceptions are modelled with `Except`; every operation returns the manager
  state alongside the result, so "no mutation happened before the raise" is a
  provable statement rather than a modelling artifact.  Exception classes are
  mapped to the spec's error taxonomy (`ValueError` for containment ->
  `outsideRepository`, etc.).
-/

/-- Characters of a string literal; Python `str` values are `List Char`. -/
def chars (s : String) : List Char := s.data

/-- Python `str` model. -/
abbrev Str := List Char

/-- Component-wise `startswith` / leading-segment test, used both for
Python `str.startswith` (on `List Char`) and for `Path.relative_to`
containment (on component lists). -/
def isStart {α : Type} [DecidableEq α] : List α → List α → Bool
  | [], _ => true
  | _ :: _, [] => false
  | a :: as, b :: bs => if a = b then isStart as bs else false

/-- Insertion-ordered association list standing for a Python `dict`
whose keys and values are strings (the color mappings). -/
abbrev ColorMap := List (Str × Str)

/-- `dict` lookup (`d.get(k)`). -/
def mapGet : ColorMap → Str → Option Str
  | [], _ => none
  | (k', v) :: rest, k => if k' = k then some v else mapGet rest k

/-- `k in d`. -/
def mapHas (m : ColorMap) (k : Str) : Bool := (mapGet m k).isSome

/-- `d.pop(k)`: removes the entry with the given key (keys are unique). -/
def mapErase : ColorMap → Str → ColorMap
  | [], _ => []
  | (k', v) :: rest, k =>
    if k' = k then mapErase rest k else (k', v) :: mapErase rest k

/-- `d[k] = v`: replaces the value in place if the key is present,
otherwise appends the entry (Python insertion-order semantics). -/
def mapSet : ColorMap → Str → Str → ColorMap
  | [], k, v => [(k, v)]
  | (k', v') :: rest, k, v =>
    if k' = k then (k, v) :: rest else (k', v') :: mapSet rest k v

/-- `d.update(u)`. -/
def mapUpdate (m u : ColorMap) : ColorMap :=
  u.foldl (fun acc e => mapSet acc e.1 e.2) m

/-- Whitespace class of Python `str.strip()` (ASCII part). -/
def isSpaceChar (c : Char) : Bool :=
  decide (c = ' ' ∨ c = '\t' ∨ c = '\n' ∨ c = '\x0d' ∨ c = '\x0b' ∨ c = '\x0c')

/-- Python `s.strip()`. -/
def pyStrip (s : Str) : Str :=
  ((s.dropWhile isSpaceChar).reverse.dropWhile isSpaceChar).reverse

/-- Hex digit class of the regex `[0-9a-fA-F]`. -/
def isHexChar (c : Char) : Bool :=
  decide (('0' ≤ c ∧ c ≤ '9') ∨ ('a' ≤ c ∧ c ≤ 'f') ∨ ('A' ≤ c ∧ c ≤ 'F'))

/-- `re.fullmatch(r"#?[0-9a-fA-F]{6}", candidate)` as a Boolean test. -/
def matchColor : Str → Bool
  | '#' :: rest => rest.length == 6 && rest.all isHexChar
  | s => s.length == 6 && s.all isHexChar

/-- `NoteManager._sanitize_color` (note_manager.py:192-202) restricted to
string input: strip, reject empty or non-matching candidates, ensure a
leading `#`, and uppercase. -/
def sanitizeColor (color : Str) : Option Str :=
  let candidate := pyStrip color
  if candidate = [] then none
  else if ¬ matchColor candidate then none
  else
    let candidate2 := if isStart ['#'] candidate then candidate else '#' :: candidate
    some (candidate2.map Char.toUpper)

/-- Hit test of `_remove_color_subtree` / `_reassign_color_subtree`
(note_manager.py:237, 254): `entry == relative or entry.startswith(prefix)`
with `prefix = relative + "/"`. -/
def subtreeHit (root entry : Str) : Bool :=
  if entry = root then true else isStart (root ++ ['/']) entry

/-- `entry[len(old_rel):].lstrip("/")` (note_manager.py:255). -/
def sufAfter (root entry : Str) : Str :=
  (entry.drop root.length).dropWhile (fun c => decide (c = '/'))

/-- `new_rel if not suffix else f"{new_rel}/{suffix}"` (note_manager.py:256). -/
def replFor (newRoot root entry : Str) : Str :=
  let suffix := sufAfter root entry
  if suffix = [] then newRoot else newRoot ++ '/' :: suffix

/-- `NoteManager._reassign_color_subtree` (note_manager.py:243-261) acting on
one mapping: pop every entry at or under `oldR`, rewrite its key under
`newR`, then `mapping.update(updates)`.  Returns the mapping together with
the `changed` flag (whether `_save_metadata` runs). -/
def reassignColorSubtree (oldR newR : Str) (m : ColorMap) : ColorMap × Bool :=
  if oldR = newR then (m, false)
  else
    let hits := m.filter (fun e => subtreeHit oldR e.1)
    if hits.isEmpty then (m, false)
    else
      let kept := m.filter (fun e => !subtreeHit oldR e.1)
      let updates := hits.foldl (fun u e => mapSet u (replFor newR oldR e.1) e.2) []
      (mapUpdate kept updates, true)

/-- `NoteManager._remove_color_subtree` (note_manager.py:230-241) acting on
one mapping; returns the mapping and the `removed` flag. -/
def removeColorSubtree (root : Str) (m : ColorMap) : ColorMap × Bool :=
  let kept := m.filter (fun e => !subtreeHit root e.1)
  (kept, !(m.filter (fun e => subtreeHit root e.1)).isEmpty)

/-! ## Path model -/

/-- One path component (a file or directory name), as a character list. -/
abbrev PName := List Char

/-- Canonical absolute path: the list of name components from the
filesystem root, already free of `.`, `..` and empty components. -/
abbrev CanonPath := List PName

/-- A path value as handed to the manager: a flag for absoluteness plus the
raw components (mirroring `pathlib.Path` parts, the anchor excluded). -/
structure PPath where
  absolute : Bool
  comps : List PName
  deriving DecidableEq, Repr

/-- Normalization performed by `Path.resolve()` on a symlink-free tree:
drop `.` and empty components, let `..` pop the last component (at the
root, `..` stays at the root). -/
def normComps (cs : List PName) : CanonPath :=
  cs.foldl
    (fun acc c =>
      if c = chars "." ∨ c = [] then acc
      else if c = chars ".." then acc.dropLast
      else acc ++ [c])
    []

/-- `Path(p).resolve()` of a possibly relative path against a canonical
base directory (the repository root for manager arguments, the working
directory for `Path(...).resolve()` on raw input). -/
def resolveAgainst (base : CanonPath) (p : PPath) : CanonPath :=
  if p.absolute then normComps p.comps else normComps (base ++ p.comps)

/-- Final component (`Path.name`); empty for the filesystem root. -/
def lastComp (p : CanonPath) : PName := p.getLastD []

/-- Index of the last `.` in a name, if any. -/
def lastDotIdx (n : PName) : Option Nat :=
  match n.reverse.findIdx? (fun c => decide (c = '.')) with
  | none => none
  | some j => some (n.length - 1 - j)

/-- `PurePath.suffix` of a single name: the part from the last dot,
unless that dot is the first or the last character. -/
def nameSuffix (n : PName) : Str :=
  match lastDotIdx n with
  | none => []
  | some i => if 0 < i ∧ i + 1 < n.length then n.drop i else []

/-- `PurePath.stem` of a single name. -/
def nameStem (n : PName) : PName :=
  match lastDotIdx n with
  | none => n
  | some i => if 0 < i ∧ i + 1 < n.length then n.take i else n

/-- `PurePath.with_suffix` on the final name: strip the old suffix and
append the new one. -/
def withSuffixName (n : PName) (ext : Str) : PName := nameStem n ++ ext

/-- `Path.relative_to(repo).as_posix()`: join the components after the
repository root with `/`; the repository root itself maps to `"."`. -/
def joinSlash : List PName → Str
  | [] => []
  | [n] => n
  | n :: rest => n ++ '/' :: joinSlash rest

/-- Relative color-store key of a contained canonical path
(`NoteManager._ensure_relative_key`, note_manager.py:204-211). -/
def relKey (repo p : CanonPath) : Str :=
  let r := p.drop repo.length
  if r = [] then chars "." else joinSlash r

/-- Inverse direction used when reloading metadata: split a stored key at
`/` into components (`repo / Path(rel_path)`). -/
def splitSlash (s : Str) : List PName :=
  s.splitOn '/'

/-- `.txt` and `.md` — `NoteManager.SUPPORTED_EXTENSIONS`. -/
def supportedExts : List Str := [chars ".txt", chars ".md"]

/-- `note_path.suffix.lower() in SUPPORTED_EXTENSIONS`
(`_ensure_supported_extension`, note_manager.py:359-361). -/
def hasSupportedExt (p : CanonPath) : Bool :=
  supportedExts.contains ((nameSuffix (lastComp p)).map Char.toLower)

/-! ## Filesystem model -/

/-- A filesystem node: a regular file with text contents, or a directory. -/
inductive FsNode where
  | file (content : Str)
  | dir
  deriving DecidableEq, Repr

/-- The filesystem: an association list from canonical paths to nodes. -/
abbrev FS := List (CanonPath × FsNode)

/-- Node at a path, if any. -/
def fsGet : FS → CanonPath → Option FsNode
  | [], _ => none
  | (q, n) :: rest, p => if q = p then some n else fsGet rest p

/-- `Path.exists()`. -/
def fsExists (fs : FS) (p : CanonPath) : Bool := (fsGet fs p).isSome

/-- `Path.is_dir()`. -/
def fsIsDir (fs : FS) (p : CanonPath) : Bool :=
  match fsGet fs p with
  | some .dir => true
  | _ => false

/-- Overwrite or create a single entry (used by `write_text` and `touch`). -/
def fsSet : FS → CanonPath → FsNode → FS
  | [], p, n => [(p, n)]
  | (q, m) :: rest, p, n =>
    if q = p then (p, n) :: rest else (q, m) :: fsSet rest p n

/-- `mkdir(exist_ok=True)` for one directory. -/
def fsMkdir (fs : FS) (p : CanonPath) : FS :=
  if fsExists fs p then fs else fs ++ [(p, .dir)]

/-- The nonempty leading segments of a path, shortest first. -/
def pathChain (p : CanonPath) : List CanonPath :=
  (List.range p.length).map (fun i => p.take (i + 1))

/-- `mkdir(parents=True, exist_ok=True)`: create every missing directory
along the chain. -/
def mkdirAll (fs : FS) (p : CanonPath) : FS :=
  (pathChain p).foldl fsMkdir fs

/-- Immediate children of a directory (`Path.iterdir()`). -/
def fsChildren (fs : FS) (p : CanonPath) : List CanonPath :=
  (fs.filter (fun e => e.1.length = p.length + 1 && isStart p e.1)).map (·.1)

/-- Remove exactly one entry (`unlink` / `rmdir`). -/
def fsRemove (fs : FS) (p : CanonPath) : FS :=
  fs.filter (fun e => !(e.1 = p : Bool))

/-- `Path.rename`: relocate the entry and its whole subtree. -/
def fsRename (fs : FS) (old new : CanonPath) : FS :=
  fs.map (fun e =>
    if isStart old e.1 then (new ++ e.1.drop old.length, e.2) else e)

/-- Key relocation performed by `fsRename`. -/
def renKey (old new k : CanonPath) : CanonPath :=
  if isStart old k then new ++ k.drop old.length else k

/-! ## Error taxonomy (spec section 7) -/

/-- Failure conditions raised by the manager, named as the spec's error
taxonomy names the exceptions raised in the source. -/
inductive Err where
  | notConfigured
  | notFound
  | notADirectory
  | isADirectory
  | alreadyExists
  | unsupportedExtension
  | outsideRepository
  | notEmpty
  | invalidOperation
  | invalidColor
  | invalidArgument
  | recursionLimit
  deriving DecidableEq, Repr

/-! ## Manager state -/

/-- Lookup in the per-repository metadata-file map. -/
def metaGet : List (CanonPath × (ColorMap × ColorMap)) → CanonPath →
    Option (ColorMap × ColorMap)
  | [], _ => none
  | (q, v) :: rest, p => if q = p then some v else metaGet rest p

/-- Store in the per-repository metadata-file map. -/
def metaSet : List (CanonPath × (ColorMap × ColorMap)) → CanonPath →
    ColorMap × ColorMap → List (CanonPath × (ColorMap × ColorMap))
  | [], p, v => [(p, v)]
  | (q, w) :: rest, p, v =>
    if q = p then (p, v) :: rest else (q, w) :: metaSet rest p v

/-- The in-process `NoteManager` state together with its environment: the
filesystem, the working directory, the config document
(`cfgHasSection`/`cfgRepoVal`/`cfgThemeVal` model the single `[pixelpad]`
section) and the per-repository color-metadata files (`metaFiles` maps a
canonical repository path to the parsed contents of its `colors.json`,
abstracting the hash-keyed location and JSON encoding; the already-performed
legacy migration is outside this model).  `cfgWrites` and `metaWrites` count
whole-file rewrites so "the file is not rewritten" is provable. -/
structure Manager where
  fs : FS
  cwd : CanonPath
  repo : Option CanonPath
  noteColors : ColorMap
  nbColors : ColorMap
  loadedFor : Option CanonPath
  metaFiles : List (CanonPath × (ColorMap × ColorMap))
  metaWrites : Nat
  cfgHasSection : Bool
  cfgRepoVal : Option CanonPath
  cfgThemeVal : Option Str
  preferredTheme : Str
  cfgWrites : Nat
  deriving DecidableEq, Repr

/-- `NoteManager._ensure_repository` (note_manager.py:346-357): all three
failure modes raise the not-configured condition. -/
def ensureRepository (st : Manager) : Except Err CanonPath :=
  match st.repo with
  | none => .error .notConfigured
  | some r =>
    if ¬ fsExists st.fs r then .error .notConfigured
    else if ¬ fsIsDir st.fs r then .error .notConfigured
    else .ok r

/-- `NoteManager._save_metadata` (note_manager.py:183-190): whole-document
rewrite of the repository's metadata file. -/
def saveMetadata (st : Manager) (repo : CanonPath) : Manager :=
  { st with metaFiles := metaSet st.metaFiles repo (st.noteColors, st.nbColors),
            metaWrites := st.metaWrites + 1 }

/-- Loading pass of `_ensure_metadata_loaded` (note_manager.py:151-163):
keep string keys, keep entries whose color sanitizes, normalized. -/
def sanitizeStore (raw : ColorMap) : ColorMap :=
  raw.foldl
    (fun acc e =>
      match sanitizeColor e.2 with
      | some c => mapSet acc e.1 c
      | none => acc)
    []

/-- `NoteManager._prune_missing_metadata` (note_manager.py:168-181) on one
mapping: drop entries whose `(repo / Path(rel_path)).resolve()` is missing. -/
def pruneStore (fs : FS) (repo : CanonPath) (m : ColorMap) : ColorMap :=
  m.filter (fun e => fsExists fs (resolveAgainst repo ⟨false, splitSlash e.1⟩))

/-- `NoteManager._ensure_metadata_loaded` (note_manager.py:117-166): no-op
when the cache is already for this repository, otherwise read the
repository's metadata file, sanitize, prune, and persist if pruning
changed anything.  (The one-time legacy migration is not modelled;
`metaFiles` stands for the post-migration canonical store.) -/
def ensureMetadataLoaded (st : Manager) : Except Err Manager :=
  match ensureRepository st with
  | .error e => .error e
  | .ok repo =>
    if st.loadedFor = some repo then .ok st
    else
      let raw := (metaGet st.metaFiles repo).getD ([], [])
      let notes1 := sanitizeStore raw.1
      let nbs1 := sanitizeStore raw.2
      let notes2 := pruneStore st.fs repo notes1
      let nbs2 := pruneStore st.fs repo nbs1
      let st1 := { st with noteColors := notes2, nbColors := nbs2,
                           loadedFor := some repo }
      if notes2 ≠ notes1 ∨ nbs2 ≠ nbs1 then .ok (saveMetadata st1 repo)
      else .ok st1

/-- `NoteManager._set_color_entry` (note_manager.py:213-228) on the selected
mapping (`useNotes` picks `"notes"` or `"notebooks"`), including the
`_ensure_relative_key` containment check (note_manager.py:204-211). -/
def setColorEntryOp (st : Manager) (useNotes : Bool) (target : PPath)
    (color : Option Str) : Except Err Unit × Manager :=
  match ensureMetadataLoaded st with
  | .error e => (.error e, st)
  | .ok st1 =>
    match ensureRepository st1 with
    | .error e => (.error e, st1)
    | .ok repo =>
      let absolute := resolveAgainst st1.cwd target
      if ¬ isStart repo absolute then (.error .outsideRepository, st1)
      else
        let relative := relKey repo absolute
        let mapping := if useNotes then st1.noteColors else st1.nbColors
        match color with
        | none =>
          if mapHas mapping relative then
            let m' := mapErase mapping relative
            let st2 := if useNotes then { st1 with noteColors := m' }
                       else { st1 with nbColors := m' }
            (.ok (), saveMetadata st2 repo)
          else (.ok (), st1)
        | some c =>
          match sanitizeColor c with
          | none => (.error .invalidColor, st1)
          | some normalized =>
            if mapGet mapping relative = some normalized then (.ok (), st1)
            else
              let m' := mapSet mapping relative normalized
              let st2 := if useNotes then { st1 with noteColors := m' }
                         else { st1 with nbColors := m' }
              (.ok (), saveMetadata st2 repo)

/-- `NoteManager._reassign_color_subtree` (note_manager.py:243-261) as a
manager operation on the selected mapping, with its metadata-load and
relative-key steps. -/
def reassignSubtreeOp (st : Manager) (useNotes : Bool) (oldP newP : CanonPath) :
    Except Err Manager :=
  match ensureMetadataLoaded st with
  | .error e => .error e
  | .ok st1 =>
    match ensureRepository st1 with
    | .error e => .error e
    | .ok repo =>
      if ¬ isStart repo oldP then .error .outsideRepository
      else if ¬ isStart repo newP then .error .outsideRepository
      else
        let oldRel := relKey repo oldP
        let newRel := relKey repo newP
        let mapping := if useNotes then st1.noteColors else st1.nbColors
        let res := reassignColorSubtree oldRel newRel mapping
        if res.2 then
          let st2 := if useNotes then { st1 with noteColors := res.1 }
                     else { st1 with nbColors := res.1 }
          .ok (saveMetadata st2 repo)
        else .ok st1

/-- `NoteManager._reassign_notebook_tree_colors` (note_manager.py:279-281):
notebooks mapping first, then notes. -/
def reassignTreeColorsOp (st : Manager) (oldP newP : CanonPath) :
    Except Err Manager :=
  match reassignSubtreeOp st false oldP newP with
  | .error e => .error e
  | .ok st1 => reassignSubtreeOp st1 true oldP newP

/-- `NoteManager._remove_color_subtree` (note_manager.py:230-241) as a
manager operation on the selected mapping. -/
def removeSubtreeOp (st : Manager) (useNotes : Bool) (p : CanonPath) :
    Except Err Manager :=
  match ensureMetadataLoaded st with
  | .error e => .error e
  | .ok st1 =>
    match ensureRepository st1 with
    | .error e => .error e
    | .ok repo =>
      if ¬ isStart repo p then .error .outsideRepository
      else
        let rel := relKey repo p
        let mapping := if useNotes then st1.noteColors else st1.nbColors
        let res := removeColorSubtree rel mapping
        if res.2 then
          let st2 := if useNotes then { st1 with noteColors := res.1 }
                     else { st1 with nbColors := res.1 }
          .ok (saveMetadata st2 repo)
        else .ok st1

/-- `NoteManager._remove_notebook_tree_colors` (note_manager.py:272-274):
notebooks mapping first, then notes. -/
def removeTreeColorsOp (st : Manager) (p : CanonPath) : Except Err Manager :=
  match removeSubtreeOp st false p with
  | .error e => .error e
  | .ok st1 => removeSubtreeOp st1 true p

/-! ## Note and notebook operations -/

/-- `NoteManager._resolve_note_path` (note_manager.py:363-374): absolutize
against the repository, resolve, require containment, then require a
supported extension. -/
def resolveNotePath (st : Manager) (note : PPath) : Except Err CanonPath :=
  match ensureRepository st with
  | .error e => .error e
  | .ok repo =>
    let notePath := resolveAgainst repo note
    if ¬ isStart repo notePath then .error .outsideRepository
    else if ¬ hasSupportedExt notePath then .error .unsupportedExtension
    else .ok notePath

/-- `NoteManager.load_note` (note_manager.py:376-380). -/
def loadNote (st : Manager) (note : PPath) : Except Err Str × Manager :=
  match resolveNotePath st note with
  | .error e => (.error e, st)
  | .ok np =>
    match fsGet st.fs np with
    | none => (.error .notFound, st)
    | some .dir => (.error .isADirectory, st)
    | some (.file c) => (.ok c, st)

/-- `NoteManager.save_note` (note_manager.py:382-386): create parent
directories, write the content, return the canonical path. -/
def saveNote (st : Manager) (note : PPath) (content : Str) :
    Except Err CanonPath × Manager :=
  match resolveNotePath st note with
  | .error e => (.error e, st)
  | .ok np =>
    let fs1 := mkdirAll st.fs np.dropLast
    if fsIsDir fs1 np then (.error .isADirectory, { st with fs := fs1 })
    else (.ok np, { st with fs := fsSet fs1 np (.file content) })

/-- `NoteManager.delete_note` (note_manager.py:570-575). -/
def deleteNote (st : Manager) (note : PPath) : Except Err Unit × Manager :=
  match resolveNotePath st note with
  | .error e => (.error e, st)
  | .ok np =>
    match fsGet st.fs np with
    | none => (.error .notFound, st)
    | some .dir => (.error .isADirectory, st)
    | some (.file _) =>
      let st1 := { st with fs := fsRemove st.fs np }
      match setColorEntryOp st1 true ⟨true, np⟩ none with
      | (.error e, st2) => (.error e, st2)
      | (.ok _, st2) => (.ok (), st2)

/-- `NoteManager._resolve_directory` (note_manager.py:598-613): defaulting
to the repository root, containment-checked, created if missing (the one
resolver that mutates the filesystem). -/
def resolveDirectory (st : Manager) (directory : Option PPath) :
    Except Err CanonPath × Manager :=
  match ensureRepository st with
  | .error e => (.error e, st)
  | .ok repo =>
    match directory with
    | none => (.ok repo, st)
    | some d =>
      let dp := resolveAgainst repo d
      if ¬ isStart repo dp then (.error .outsideRepository, st)
      else if fsExists st.fs dp && !fsIsDir st.fs dp then (.error .notADirectory, st)
      else (.ok dp, { st with fs := mkdirAll st.fs dp })

/-- `NoteManager._resolve_directory_path` (note_manager.py:615-627): as
`_resolve_directory` but never creates anything. -/
def resolveDirectoryPath (st : Manager) (directory : PPath) :
    Except Err CanonPath :=
  match ensureRepository st with
  | .error e => .error e
  | .ok repo =>
    let dp := resolveAgainst repo directory
    if ¬ isStart repo dp then .error .outsideRepository
    else if fsExists st.fs dp && !fsIsDir st.fs dp then .error .notADirectory
    else .ok dp

/-- `NoteManager.create_note` (note_manager.py:402-437).  The base name and
extension come from the final component of `filename` (its stem when it has
a suffix); `touch` creates an empty file and leaves an existing one's
content alone when overwriting. -/
def createNote (st : Manager) (filename : PPath) (extension : Str)
    (directory : Option PPath) (overwrite : Bool) (color : Option Str) :
    Except Err CanonPath × Manager :=
  match ensureRepository st with
  | .error e => (.error e, st)
  | .ok repo =>
    match resolveDirectory st directory with
    | (.error e, st1) => (.error e, st1)
    | (.ok targetDir, st1) =>
      let cand := filename.comps.getLastD []
      let baseName := if nameSuffix cand = [] then cand else nameStem cand
      let ext0 := if nameSuffix cand = [] then extension.map Char.toLower
                  else (nameSuffix cand).map Char.toLower
      let ext := if isStart ['.'] ext0 then ext0 else '.' :: ext0
      if ¬ supportedExts.contains ext then (.error .unsupportedExtension, st1)
      else
        let safeName := if baseName = chars "." ∨ baseName = chars ".." ∨ baseName = []
                        then [] else baseName
        if safeName = [] then (.error .invalidArgument, st1)
        else
          let notePath := normComps (targetDir ++ [withSuffixName safeName ext])
          if ¬ isStart repo notePath then (.error .outsideRepository, st1)
          else if fsExists st1.fs notePath && !overwrite then (.error .alreadyExists, st1)
          else
            let fs2 := mkdirAll st1.fs notePath.dropLast
            let fs3 := if fsExists fs2 notePath then fs2
                       else fsSet fs2 notePath (.file [])
            let st2 := { st1 with fs := fs3 }
            match color with
            | some c =>
              (match setColorEntryOp st2 true ⟨true, notePath⟩ (some c) with
               | (.error e, st3) => (.error e, st3)
               | (.ok _, st3) => (.ok notePath, st3))
            | none =>
              if overwrite then
                match setColorEntryOp st2 true ⟨true, notePath⟩ none with
                | (.error e, st3) => (.error e, st3)
                | (.ok _, st3) => (.ok notePath, st3)
              else (.ok notePath, st2)

/-- `NoteManager.create_notebook` (note_manager.py:439-470). -/
def createNotebook (st : Manager) (name : PPath) (parent : Option PPath)
    (existOk : Bool) (color : Option Str) : Except Err CanonPath × Manager :=
  match ensureRepository st with
  | .error e => (.error e, st)
  | .ok repo =>
    match resolveDirectory st parent with
    | (.error e, st1) => (.error e, st1)
    | (.ok parentDir, st1) =>
      let folderName := pyStrip (name.comps.getLastD [])
      if folderName = [] then (.error .invalidArgument, st1)
      else
        let notebookPath := normComps (parentDir ++ [folderName])
        if ¬ isStart repo notebookPath then (.error .outsideRepository, st1)
        else
          match fsGet st1.fs notebookPath with
          | some (.file _) => (.error .alreadyExists, st1)
          | some .dir =>
            if ¬ existOk then (.error .alreadyExists, st1)
            else
              (match color with
               | some c =>
                 (match setColorEntryOp st1 false ⟨true, notebookPath⟩ (some c) with
                  | (.error e, st2) => (.error e, st2)
                  | (.ok _, st2) => (.ok notebookPath, st2))
               | none => (.ok notebookPath, st1))
          | none =>
            let st2 := { st1 with fs := mkdirAll st1.fs notebookPath }
            match color with
            | some c =>
              (match setColorEntryOp st2 false ⟨true, notebookPath⟩ (some c) with
               | (.error e, st3) => (.error e, st3)
               | (.ok _, st3) => (.ok notebookPath, st3))
            | none => (.ok notebookPath, st2)

/-- `NoteManager.rename_notebook` (note_manager.py:473-494): refuse the
repository root, compute the sibling target, validate, rename, reassign
the color subtree. -/
def renameNotebook (st : Manager) (notebook : PPath) (newName : PPath) :
    Except Err CanonPath × Manager :=
  match resolveDirectoryPath st notebook with
  | .error e => (.error e, st)
  | .ok np0 =>
    match ensureRepository st with
    | .error e => (.error e, st)
    | .ok repo =>
      let np := normComps np0
      if np = repo then (.error .invalidOperation, st)
      else
        let cleaned := pyStrip (newName.comps.getLastD [])
        if cleaned = [] then (.error .invalidArgument, st)
        else
          let target := normComps (np.dropLast ++ [cleaned])
          if ¬ isStart repo target then (.error .outsideRepository, st)
          else if fsExists st.fs target then (.error .alreadyExists, st)
          else
            let st1 := { st with fs := fsRename st.fs np target }
            match reassignTreeColorsOp st1 np target with
            | .error e => (.error e, st1)
            | .ok st2 => (.ok target, st2)

/-- `NoteManager.rename_note` (note_manager.py:531-568). -/
def renameNote (st : Manager) (note : PPath) (newName : PPath)
    (overwrite : Bool) : Except Err CanonPath × Manager :=
  match resolveNotePath st note with
  | .error e => (.error e, st)
  | .ok np =>
    if ¬ fsExists st.fs np then (.error .notFound, st)
    else
      match ensureRepository st with
      | .error e => (.error e, st)
      | .ok repo =>
        let target0 := resolveAgainst repo newName
        if ¬ isStart repo target0 then (.error .outsideRepository, st)
        else if fsIsDir st.fs target0 then (.error .isADirectory, st)
        else
          let target := if nameSuffix (lastComp target0) = []
                        then target0.dropLast ++
                             [withSuffixName (lastComp target0) (nameSuffix (lastComp np))]
                        else target0
          let ext := (nameSuffix (lastComp target)).map Char.toLower
          if ¬ supportedExts.contains ext then (.error .unsupportedExtension, st)
          else if target = np then (.ok target, st)
          else
            let fs1 := mkdirAll st.fs target.dropLast
            if fsExists fs1 target then
              if overwrite then
                let fs2 := fsRemove fs1 target
                let st1 := { st with fs := fsRename fs2 np target }
                match reassignSubtreeOp st1 true np target with
                | .error e => (.error e, st1)
                | .ok st2 => (.ok target, st2)
              else (.error .alreadyExists, { st with fs := fs1 })
            else
              let st1 := { st with fs := fsRename fs1 np target }
              match reassignSubtreeOp st1 true np target with
              | .error e => (.error e, st1)
              | .ok st2 => (.ok target, st2)

/-- Strict lexicographic order on lists from a strict order on elements
(the ordering `pathlib` uses to compare paths component-wise). -/
def lexLt {α : Type} (lt : α → α → Bool) : List α → List α → Bool
  | [], [] => false
  | [], _ :: _ => true
  | _ :: _, [] => false
  | a :: as, b :: bs => if lt a b then true else if lt b a then false else lexLt lt as bs

/-- Strict order on names (characters compared by code point). -/
def nameLt (a b : PName) : Bool := lexLt (fun c d => decide (c < d)) a b

/-- Strict order on canonical paths. -/
def pathLt (a b : CanonPath) : Bool := lexLt nameLt a b

/-- Insert into a descending-sorted list. -/
def insertDesc (p : CanonPath) : List CanonPath → List CanonPath
  | [] => [p]
  | q :: rest => if pathLt q p then p :: q :: rest else q :: insertDesc p rest

/-- `sorted(contents, reverse=True)` (note_manager.py:517). -/
def sortDesc : List CanonPath → List CanonPath
  | [] => []
  | p :: rest => insertDesc p (sortDesc rest)

/-- Empty-ancestor pruning loop of `delete_notebook`
(note_manager.py:526-529), recursing up from `parent`. -/
def pruneUp : Nat → FS → CanonPath → CanonPath → FS
  | 0, fs, _, _ => fs
  | fuel + 1, fs, repo, parent =>
    if parent ≠ repo ∧ fsExists fs parent = true ∧ fsChildren fs parent = [] then
      pruneUp fuel (fsRemove fs parent) repo parent.dropLast
    else fs

mutual

/-- `NoteManager.delete_notebook` (note_manager.py:496-529).  The recursion
over sub-notebooks is bounded by a fuel parameter (Python's recursion
limit); with fuel larger than the tree depth the limit is never reached. -/
def deleteNotebookFuel : Nat → Manager → PPath → Bool → Except Err Unit × Manager
  | 0, st, _, _ => (.error .recursionLimit, st)
  | fuel + 1, st, notebook, recursive =>
    match ensureRepository st with
    | .error e => (.error e, st)
    | .ok repo =>
      match resolveDirectoryPath st notebook with
      | .error e => (.error e, st)
      | .ok np =>
        if np = repo then (.error .invalidOperation, st)
        else if ¬ fsExists st.fs np then (.error .notFound, st)
        else if ¬ fsIsDir st.fs np then (.error .notADirectory, st)
        else
          let contents := fsChildren st.fs np
          if ¬ contents.isEmpty ∧ ¬ recursive then (.error .notEmpty, st)
          else
            match (if recursive then deleteChildrenFuel fuel st (sortDesc contents)
                   else (.ok (), st)) with
            | (.error e, st1) => (.error e, st1)
            | (.ok _, st1) =>
              let st2 := { st1 with fs := fsRemove st1.fs np }
              match removeTreeColorsOp st2 np with
              | .error e => (.error e, st2)
              | .ok st3 =>
                let fs' := pruneUp np.dropLast.length st3.fs repo np.dropLast
                (.ok (), { st3 with fs := fs' })
termination_by fuel _ _ _ => (fuel, 0)

/-- The `for child in sorted(contents, reverse=True)` body of
`delete_notebook` (note_manager.py:517-522). -/
def deleteChildrenFuel : Nat → Manager → List CanonPath → Except Err Unit × Manager
  | _, st, [] => (.ok (), st)
  | fuel, st, c :: rest =>
    if fsIsDir st.fs c then
      match deleteNotebookFuel fuel st ⟨true, c⟩ true with
      | (.error e, st1) => (.error e, st1)
      | (.ok _, st1) => deleteChildrenFuel fuel st1 rest
    else
      match setColorEntryOp st true ⟨true, c⟩ none with
      | (.error e, st1) => (.error e, st1)
      | (.ok _, st1) => deleteChildrenFuel fuel { st1 with fs := fsRemove st1.fs c } rest
termination_by fuel _ l => (fuel, l.length + 1)

end

/-- `delete_notebook` at a fuel bound ample for any state. -/
def deleteNotebook (st : Manager) (notebook : PPath) (recursive : Bool) :
    Except Err Unit × Manager :=
  deleteNotebookFuel (st.fs.length + 1) st notebook recursive

/-! ## Configuration operations -/

/-- `NoteManager.DEFAULT_THEME`. -/
def darkTheme : Str := chars "dark"

/-- The other member of `NoteManager.VALID_THEMES`. -/
def lightTheme : Str := chars "light"

/-- `NoteManager._normalize_theme` (note_manager.py:76-85). -/
def normalizeTheme (theme : Option Str) : Str :=
  match theme with
  | none => darkTheme
  | some s =>
    let candidate := (pyStrip s).map Char.toLower
    if candidate = [] then darkTheme
    else if candidate ≠ darkTheme ∧ candidate ≠ lightTheme then darkTheme
    else candidate

/-- `NoteManager.get_theme` (note_manager.py:87-88). -/
def getTheme (st : Manager) : Str := st.preferredTheme

/-- `NoteManager.set_theme` (note_manager.py:90-103): skip the file write
when the normalized value matches both the in-memory preference and the
value already in the config document. -/
def setTheme (st : Manager) (theme : Str) : Str × Manager :=
  let normalized := normalizeTheme (some theme)
  if normalized = st.preferredTheme ∧ st.cfgHasSection = true ∧
      normalizeTheme (some (st.cfgThemeVal.getD normalized)) = normalized then
    (normalized, st)
  else
    (normalized,
     { st with preferredTheme := normalized, cfgHasSection := true,
               cfgThemeVal := some normalized, cfgWrites := st.cfgWrites + 1 })

/-- `NoteManager.get_repository_path` (note_manager.py:317-318). -/
def getRepositoryPath (st : Manager) : Option CanonPath := st.repo

/-- `NoteManager.set_repository_path` (note_manager.py:323-342): validate,
persist path and theme, reset the color-metadata cache, reload it for the
new repository, return the canonical path. -/
def setRepositoryPath (st : Manager) (p : PPath) : Except Err CanonPath × Manager :=
  let resolved := resolveAgainst st.cwd p
  if ¬ fsExists st.fs resolved then (.error .notFound, st)
  else if ¬ fsIsDir st.fs resolved then (.error .notADirectory, st)
  else
    let st1 := { st with
      cfgHasSection := true, cfgRepoVal := some resolved,
      cfgThemeVal := some st.preferredTheme, cfgWrites := st.cfgWrites + 1,
      repo := some resolved,
      noteColors := [], nbColors := [], loadedFor := none }
    match ensureMetadataLoaded st1 with
    | .error e => (.error e, st1)
    | .ok st2 => (.ok resolved, st2)

/-! ## Notebook move -/

/-- Outcome of a notebook-move request as the UI entry point handles it:
silent returns and warning dialogs versus a performed move. -/
inductive MoveResult where
  | noRepo
  | rejectedOutside
  | rejectedRoot
  | rejectedNoOp
  | rejectedDescendant
  | failed (e : Err)
  | moved (p : CanonPath)
  deriving DecidableEq, Repr

/-- `MainWindow._handle_notebook_move_requested` (main_window.py:551-596)
combined with the notebook move core.  The guard logic — containment of
both arguments, the repository root, the no-op cases (target equals the
notebook or its parent), and the own-descendant check via
`target_path.relative_to(notebook_path)` — is translated from
main_window.py.

Modelled from the spec: `NoteManager.move_notebook` itself is invoked at
main_window.py:592 but is absent from the source tree; its body is modelled
from spec section 4.5 `move(path, target_parent)` — "equivalent semantics
to rename but target directory differs ... Reassigns color subtree on
success": the destination is `target_parent / notebook.name`, a missing
source or target parent fails as the underlying rename would, an occupied
destination fails `AlreadyExists`, then the directory is renamed and the
color subtree reassigned exactly as `rename_notebook` does. -/
def moveNotebookRequested (st : Manager) (notebook targetDir : PPath) :
    MoveResult × Manager :=
  match st.repo with
  | none => (.noRepo, st)
  | some repoR =>
    let notebookPath := resolveAgainst st.cwd notebook
    let targetPath := resolveAgainst st.cwd targetDir
    if ¬ (isStart repoR notebookPath && isStart repoR targetPath) then
      (.rejectedOutside, st)
    else if notebookPath = repoR then (.rejectedRoot, st)
    else if targetPath = notebookPath ∨ targetPath = notebookPath.dropLast then
      (.rejectedNoOp, st)
    else if isStart notebookPath targetPath then (.rejectedDescendant, st)
    else
      match ensureRepository st with
      | .error e => (.failed e, st)
      | .ok repo =>
        if ¬ fsExists st.fs notebookPath then (.failed .notFound, st)
        else if ¬ fsExists st.fs targetPath then (.failed .notFound, st)
        else if ¬ fsIsDir st.fs targetPath then (.failed .notADirectory, st)
        else
          let newPath := targetPath ++ [lastComp notebookPath]
          if ¬ isStart repo newPath then (.failed .outsideRepository, st)
          else if fsExists st.fs newPath then (.failed .alreadyExists, st)
          else
            let st1 := { st with fs := fsRename st.fs notebookPath newPath }
            match reassignTreeColorsOp st1 notebookPath newPath with
            | .error e => (.failed e, st1)
            | .ok st2 => (.moved newPath, st2)

/-! ## Well-formedness predicates and a base state for concrete runs -/

/-- Two consecutive slashes somewhere in the string. -/
def hasDoubleSlash : Str → Bool
  | c1 :: c2 :: rest =>
    (decide (c1 = '/') && decide (c2 = '/')) || hasDoubleSlash (c2 :: rest)
  | _ => false

/-- Well-formed relative color-store key: the shape `_ensure_relative_key`
produces (a nonempty POSIX-relative path with single interior slashes). -/
def wfKey (k : Str) : Bool :=
  decide (k ≠ [] ∧ k.head? ≠ some '/' ∧ k.getLast? ≠ some '/') && !hasDoubleSlash k

/-- A canonical-path component list that is already in normal form. -/
def cleanComp (c : PName) : Bool :=
  decide (¬ (c = chars "." ∨ c = [] ∨ c = chars ".."))

/-- Every proper nonempty leading segment of every recorded path is a
recorded directory (true of any real directory tree). -/
def ancClosedB (fs : FS) : Bool :=
  fs.all (fun e =>
    (List.range e.1.length).all (fun n => n = 0 || n = e.1.length || fsIsDir fs (e.1.take n)))

/-- A tiny concrete manager state used to instantiate the theorems:
repository `/r` containing directory `/r/C`, color tags on `A` and `C`. -/
def baseMgr : Manager :=
  { fs := [([chars "r"], .dir), ([chars "r", chars "C"], .dir)]
    cwd := []
    repo := some [chars "r"]
    noteColors := []
    nbColors := [(chars "A", chars "#111111"), (chars "C", chars "#222222")]
    loadedFor := some [chars "r"]
    metaFiles := []
    metaWrites := 0
    cfgHasSection := true
    cfgRepoVal := some [chars "r"]
    cfgThemeVal := some (chars "dark")
    preferredTheme := chars "dark"
    cfgWrites := 0 }

/-- Decidable equality for `Except`, so concrete runs can be checked by
`decide`. -/
instance {ε α : Type} [DecidableEq ε] [DecidableEq α] : DecidableEq (Except ε α) :=
  fun a b =>
  match a, b with
  | .error e, .error f =>
    if h : e = f then .isTrue (by rw [h]) else .isFalse (by intro hh; cases hh; exact h rfl)
  | .error _, .ok _ => .isFalse (by intro hh; cases hh)
  | .ok _, .error _ => .isFalse (by intro hh; cases hh)
  | .ok x, .ok y =>
    if h : x = y then .isTrue (by rw [h]) else .isFalse (by intro hh; cases hh; exact h rfl)

instance : Inhabited FsNode := ⟨.dir⟩

/-! ## Basic lemmas about the primitives -/

theorem isStart_iff {α : Type} [DecidableEq α] (a b : List α) :
    isStart a b = true ↔ ∃ t, b = a ++ t := by
  induction a generalizing b with
  | nil => simp [isStart]
  | cons x xs ih =>
    cases b with
    | nil => simp [isStart]
    | cons y ys =>
      simp only [isStart]
      by_cases hxy : x = y
      · subst hxy
        rw [if_pos rfl, ih]
        constructor
        · rintro ⟨t, rfl⟩; exact ⟨t, rfl⟩
        · rintro ⟨t, ht⟩
          injection ht with _ h2
          exact ⟨t, h2⟩
      · rw [if_neg hxy]
        constructor
        · intro h; simp at h
        · rintro ⟨t, ht⟩
          injection ht with h1 _
          exact absurd h1.symm hxy

theorem isStart_refl {α : Type} [DecidableEq α] (a : List α) : isStart a a = true := by
  rw [isStart_iff]; exact ⟨[], by simp⟩

theorem isStart_append {α : Type} [DecidableEq α] (a t : List α) :
    isStart a (a ++ t) = true := by
  rw [isStart_iff]; exact ⟨t, rfl⟩


theorem isStart_length {α : Type} [DecidableEq α] {a b : List α}
    (h : isStart a b = true) : a.length ≤ b.length := by
  rcases (isStart_iff a b).1 h with ⟨t, rfl⟩
  simp

theorem isStart_antisymm {α : Type} [DecidableEq α] {a b : List α}
    (h1 : isStart a b = true) (h2 : isStart b a = true) : a = b := by
  rcases (isStart_iff a b).1 h1 with ⟨t, rfl⟩
  have hl := isStart_length h2
  simp only [List.length_append] at hl
  have ht : t = [] := List.length_eq_zero.1 (by omega)
  simp [ht]

theorem isStart_trans_le {α : Type} [DecidableEq α] {a b c : List α}
    (h1 : isStart a c = true) (h2 : isStart b c = true)
    (hle : a.length ≤ b.length) : isStart a b = true := by
  rcases (isStart_iff a c).1 h1 with ⟨t1, rfl⟩
  rcases (isStart_iff b _).1 h2 with ⟨t2, he⟩
  rw [isStart_iff]
  have hc := congrArg (List.take b.length) he
  rw [List.take_left, List.take_append_eq_append_take, List.take_of_length_le hle] at hc
  exact ⟨_, hc.symm⟩

theorem isStart_extend {α : Type} [DecidableEq α] {a b : List α}
    (h : isStart a b = true) (x : α) : isStart a (b ++ [x]) = true := by
  rcases (isStart_iff a b).1 h with ⟨t, rfl⟩
  rw [isStart_iff]
  exact ⟨t ++ [x], by simp⟩

theorem mapGet_eq_none_iff (m : ColorMap) (k : Str) :
    mapGet m k = none ↔ ∀ e ∈ m, e.1 ≠ k := by
  induction m with
  | nil => simp [mapGet]
  | cons e rest ih =>
    obtain ⟨k', v⟩ := e
    by_cases h : k' = k
    · subst h; simp [mapGet]
    · simp [mapGet, h, ih]

theorem mapGet_some_mem {m : ColorMap} {k v : Str} (h : mapGet m k = some v) :
    (k, v) ∈ m := by
  induction m with
  | nil => simp [mapGet] at h
  | cons e rest ih =>
    obtain ⟨k', v'⟩ := e
    by_cases hk : k' = k
    · subst hk
      simp [mapGet] at h
      subst h
      exact List.mem_cons_self _ _
    · simp only [mapGet, if_neg hk] at h
      exact List.mem_cons_of_mem _ (ih h)

theorem mapGet_mapSet (m : ColorMap) (k v x : Str) :
    mapGet (mapSet m k v) x = if x = k then some v else mapGet m x := by
  induction m with
  | nil =>
    simp only [mapSet, mapGet]
    by_cases h : x = k
    · subst h; simp
    · rw [if_neg (fun hh => h hh.symm), if_neg h]
  | cons e rest ih =>
    obtain ⟨k', v'⟩ := e
    simp only [mapSet]
    by_cases hk : k' = k
    · subst hk
      rw [if_pos rfl]
      simp only [mapGet]
      by_cases hx : x = k'
      · subst hx; simp
      · rw [if_neg (fun hh => hx hh.symm), if_neg hx, if_neg (fun hh => hx hh.symm)]
    · rw [if_neg hk]
      simp only [mapGet]
      by_cases hx : k' = x
      · subst hx
        simp [hk]
      · rw [if_neg hx, if_neg hx, ih]

theorem mapGet_filter (q : Str → Bool) (m : ColorMap) (x : Str) :
    mapGet (m.filter (fun e => q e.1)) x = if q x then mapGet m x else none := by
  induction m with
  | nil => cases h : q x <;> simp [mapGet, h]
  | cons e rest ih =>
    obtain ⟨k', v'⟩ := e
    by_cases hq : q k' = true
    · rw [List.filter_cons_of_pos (by simpa using hq)]
      by_cases hk : k' = x
      · subst hk; simp [mapGet, hq]
      · simp only [mapGet, if_neg hk]
        exact ih
    · rw [List.filter_cons_of_neg (by simpa using hq)]
      rw [ih]
      by_cases hk : k' = x
      · subst hk
        rw [if_neg (by simpa using hq)]
        rw [if_neg (by simpa using hq)]
      · by_cases hx : q x = true
        · rw [if_pos hx, if_pos hx]
          simp [mapGet, hk]
        · rw [if_neg (by simpa using hx), if_neg (by simpa using hx)]

theorem mapGet_foldl_mapSet_notmem (u : ColorMap) (b : ColorMap) (x : Str)
    (hx : ∀ e ∈ u, e.1 ≠ x) :
    mapGet (u.foldl (fun a e => mapSet a e.1 e.2) b) x = mapGet b x := by
  induction u generalizing b with
  | nil => rfl
  | cons e u' ih =>
    simp only [List.foldl_cons]
    rw [ih _ (fun e' he' => hx e' (List.mem_cons_of_mem _ he'))]
    rw [mapGet_mapSet]
    exact if_neg (fun hh => hx e (List.mem_cons_self _ _) hh.symm)

theorem mapGet_foldl_mapSet_mem (u : ColorMap) (b : ColorMap) (x v : Str)
    (hnd : (u.map (fun e => e.1)).Nodup) (hmem : (x, v) ∈ u) :
    mapGet (u.foldl (fun a e => mapSet a e.1 e.2) b) x = some v := by
  induction u generalizing b with
  | nil => simp at hmem
  | cons e u' ih =>
    rw [List.map_cons, List.nodup_cons] at hnd
    simp only [List.foldl_cons]
    rcases List.mem_cons.1 hmem with heq | hmem'
    · have hex : e.1 = x := by rw [← heq]
      have hx : ∀ e' ∈ u', e'.1 ≠ x := by
        intro e' he' hcon
        exact hnd.1 (List.mem_map.2 ⟨e', he', by rw [hcon, hex]⟩)
      rw [mapGet_foldl_mapSet_notmem _ _ _ hx, mapGet_mapSet, if_pos hex.symm, ← heq]
    · exact ih _ hnd.2 hmem'

theorem mapSet_append_notmem (m : ColorMap) (k v : Str)
    (h : ∀ e ∈ m, e.1 ≠ k) : mapSet m k v = m ++ [(k, v)] := by
  induction m with
  | nil => rfl
  | cons e rest ih =>
    obtain ⟨k', v'⟩ := e
    simp only [mapSet]
    rw [if_neg (h (k', v') (List.mem_cons_self _ _))]
    rw [ih (fun e' he' => h e' (List.mem_cons_of_mem _ he'))]
    simp

theorem foldl_mapSet_eq_append (l : ColorMap) (acc : ColorMap)
    (h : ((acc ++ l).map (fun e => e.1)).Nodup) :
    l.foldl (fun a e => mapSet a e.1 e.2) acc = acc ++ l := by
  induction l generalizing acc with
  | nil => simp
  | cons e l' ih =>
    simp only [List.foldl_cons]
    have h2 := List.disjoint_of_nodup_append (by rw [List.map_append] at h; exact h)
    have hkey : ∀ e' ∈ acc, e'.1 ≠ e.1 := by
      intro e' he' hcon
      exact h2 (List.mem_map.2 ⟨e', he', rfl⟩)
        (by rw [hcon]; exact List.mem_map.2 ⟨e, List.mem_cons_self _ _, rfl⟩)
    have h1 : mapSet acc e.1 e.2 = acc ++ [e] := mapSet_append_notmem _ _ _ hkey
    rw [h1, ih (acc ++ [e]) (by simpa [List.append_assoc] using h)]
    simp

/-! ## Normalization and filesystem lemmas -/

theorem normComps_aux_clean (cs : List PName) (acc : CanonPath)
    (hacc : ∀ c ∈ acc, cleanComp c = true) :
    ∀ c ∈ cs.foldl
        (fun acc c =>
          if c = chars "." ∨ c = [] then acc
          else if c = chars ".." then acc.dropLast
          else acc ++ [c]) acc,
      cleanComp c = true := by
  induction cs generalizing acc with
  | nil => exact hacc
  | cons c0 cs' ih =>
    simp only [List.foldl_cons]
    by_cases h1 : c0 = chars "." ∨ c0 = []
    · rw [if_pos h1]; exact ih acc hacc
    · rw [if_neg h1]
      by_cases h2 : c0 = chars ".."
      · rw [if_pos h2]
        refine ih _ (fun c hc => hacc c ?_)
        rw [List.dropLast_eq_take] at hc
        exact List.take_subset _ _ hc
      · rw [if_neg h2]
        refine ih _ (fun c hc => ?_)
        rcases List.mem_append.1 hc with h | h
        · exact hacc c h
        · have hcc : c = c0 := by simpa using h
          subst hcc
          have hny : ¬ (c = chars "." ∨ c = [] ∨ c = chars "..") := by
            intro hor
            rcases hor with h | h | h
            · exact h1 (Or.inl h)
            · exact h1 (Or.inr h)
            · exact h2 h
          simpa [cleanComp] using hny

theorem normComps_clean (cs : List PName) :
    ∀ c ∈ normComps cs, cleanComp c = true :=
  normComps_aux_clean cs [] (by simp)

theorem normComps_aux_of_clean (cs : List PName) (acc : CanonPath)
    (h : ∀ c ∈ cs, cleanComp c = true) :
    cs.foldl
      (fun acc c =>
        if c = chars "." ∨ c = [] then acc
        else if c = chars ".." then acc.dropLast
        else acc ++ [c]) acc = acc ++ cs := by
  induction cs generalizing acc with
  | nil => simp
  | cons c0 cs' ih =>
    simp only [List.foldl_cons]
    have hc0 := h c0 (List.mem_cons_self _ _)
    simp only [cleanComp, decide_eq_true_eq] at hc0
    push_neg at hc0
    rw [if_neg (by tauto), if_neg (by tauto)]
    rw [ih _ (fun c hc => h c (List.mem_cons_of_mem _ hc))]
    simp

theorem normComps_of_clean (cs : List PName)
    (h : ∀ c ∈ cs, cleanComp c = true) : normComps cs = cs := by
  unfold normComps
  simpa using normComps_aux_of_clean cs [] h

theorem normComps_idem (cs : List PName) :
    normComps (normComps cs) = normComps cs :=
  normComps_of_clean _ (normComps_clean cs)

theorem fsGet_eq_none_iff (fs : FS) (p : CanonPath) :
    fsGet fs p = none ↔ ∀ e ∈ fs, e.1 ≠ p := by
  induction fs with
  | nil => simp [fsGet]
  | cons e rest ih =>
    obtain ⟨q, n⟩ := e
    by_cases h : q = p
    · subst h; simp [fsGet]
    · simp [fsGet, h, ih]

theorem fsGet_append_left {fs : FS} {p : CanonPath} {n : FsNode}
    (l : FS) (h : fsGet fs p = some n) : fsGet (fs ++ l) p = some n := by
  induction fs with
  | nil => simp [fsGet] at h
  | cons e rest ih =>
    obtain ⟨q, m⟩ := e
    by_cases hq : q = p
    · subst hq
      simp only [fsGet, if_pos rfl] at h
      simpa [fsGet] using h
    · simp only [List.cons_append, fsGet, if_neg hq] at h ⊢
      exact ih h

theorem fsGet_fsSet_self (fs : FS) (p : CanonPath) (n : FsNode) :
    fsGet (fsSet fs p n) p = some n := by
  induction fs with
  | nil => simp [fsSet, fsGet]
  | cons e rest ih =>
    obtain ⟨q, m⟩ := e
    by_cases hq : q = p
    · subst hq; simp [fsSet, fsGet]
    · simp [fsSet, fsGet, hq, ih]

theorem fsGet_fsSet_ne (fs : FS) (p q : CanonPath) (n : FsNode)
    (h : q ≠ p) : fsGet (fsSet fs p n) q = fsGet fs q := by
  induction fs with
  | nil => simp [fsSet, fsGet, Ne.symm h]
  | cons e rest ih =>
    obtain ⟨q', m⟩ := e
    by_cases hq : q' = p
    · subst hq
      simp only [fsSet, if_pos rfl]
      simp [fsGet, Ne.symm h]
    · simp only [fsSet, if_neg hq]
      simp [fsGet, ih]

theorem fsIsDir_iff (fs : FS) (p : CanonPath) :
    fsIsDir fs p = true ↔ fsGet fs p = some .dir := by
  unfold fsIsDir
  cases h : fsGet fs p with
  | none => simp
  | some n => cases n <;> simp

theorem fsGet_fsMkdir_isSome {fs : FS} {q : CanonPath} {n : FsNode}
    (p : CanonPath) (h : fsGet fs q = some n) :
    fsGet (fsMkdir fs p) q = some n := by
  unfold fsMkdir
  split
  · exact h
  · exact fsGet_append_left _ h

theorem fsGet_foldl_fsMkdir_isSome (l : List CanonPath) {fs : FS}
    {q : CanonPath} {n : FsNode} (h : fsGet fs q = some n) :
    fsGet (l.foldl fsMkdir fs) q = some n := by
  induction l generalizing fs with
  | nil => exact h
  | cons p l' ih => exact ih (fsGet_fsMkdir_isSome p h)

theorem fsGet_mkdirAll_isSome {fs : FS} {q : CanonPath} {n : FsNode}
    (p : CanonPath) (h : fsGet fs q = some n) :
    fsGet (mkdirAll fs p) q = some n :=
  fsGet_foldl_fsMkdir_isSome _ h

/-! ## Manager helper lemmas -/

theorem ensureRepository_ok {st : Manager} {R : CanonPath}
    (h1 : st.repo = some R) (h2 : fsGet st.fs R = some .dir) :
    ensureRepository st = .ok R := by
  simp [ensureRepository, h1, fsExists, fsIsDir, h2]

theorem ensureRepository_ok_inv {st : Manager} {R : CanonPath}
    (h : ensureRepository st = .ok R) :
    st.repo = some R ∧ fsGet st.fs R = some .dir := by
  cases hrepo : st.repo with
  | none => simp [ensureRepository, hrepo] at h
  | some r =>
    by_cases he : fsExists st.fs r = true
    · by_cases hd : fsIsDir st.fs r = true
      · have hrR : r = R := by simpa [ensureRepository, hrepo, he, hd] using h
        subst hrR
        exact ⟨rfl, (fsIsDir_iff _ _).1 hd⟩
      · simp [ensureRepository, hrepo, he, hd] at h
    · simp [ensureRepository, hrepo, he] at h

theorem ensureMetadataLoaded_loaded {st : Manager} {R : CanonPath}
    (h1 : st.repo = some R) (h2 : fsGet st.fs R = some .dir)
    (h3 : st.loadedFor = some R) :
    ensureMetadataLoaded st = .ok st := by
  unfold ensureMetadataLoaded
  rw [ensureRepository_ok h1 h2]
  simp [h3]

theorem isStart_append_same {α : Type} [DecidableEq α] (r a b : List α) :
    isStart (r ++ a) (r ++ b) = isStart a b := by
  induction r with
  | nil => rfl
  | cons x rs ih => simp [isStart, ih]

theorem resolveAgainst_abs {base : CanonPath} {p : PPath}
    (habs : p.absolute = true) :
    resolveAgainst base p = normComps p.comps := by
  simp [resolveAgainst, habs]

theorem resolveNotePath_outside {st : Manager} {R : CanonPath} (p : PPath)
    (h1 : st.repo = some R) (h2 : fsGet st.fs R = some .dir)
    (hout : isStart R (resolveAgainst R p) = false) :
    resolveNotePath st p = .error .outsideRepository := by
  unfold resolveNotePath
  rw [ensureRepository_ok h1 h2]
  simp [hout]

theorem resolveNotePath_ok {st : Manager} {R : CanonPath} (p : PPath)
    (h1 : st.repo = some R) (h2 : fsGet st.fs R = some .dir)
    (hin : isStart R (resolveAgainst R p) = true)
    (hext : hasSupportedExt (resolveAgainst R p) = true) :
    resolveNotePath st p = .ok (resolveAgainst R p) := by
  unfold resolveNotePath
  rw [ensureRepository_ok h1 h2]
  simp [hin, hext]

theorem resolveNotePath_unsupported {st : Manager} {R : CanonPath} (p : PPath)
    (h1 : st.repo = some R) (h2 : fsGet st.fs R = some .dir)
    (hin : isStart R (resolveAgainst R p) = true)
    (hext : hasSupportedExt (resolveAgainst R p) = false) :
    resolveNotePath st p = .error .unsupportedExtension := by
  unfold resolveNotePath
  rw [ensureRepository_ok h1 h2]
  simp [hin, hext]

theorem resolveDirectory_outside {st : Manager} {R : CanonPath} (p : PPath)
    (h1 : st.repo = some R) (h2 : fsGet st.fs R = some .dir)
    (hout : isStart R (resolveAgainst R p) = false) :
    resolveDirectory st (some p) = (.error .outsideRepository, st) := by
  unfold resolveDirectory
  rw [ensureRepository_ok h1 h2]
  simp [hout]

theorem resolveDirectoryPath_outside {st : Manager} {R : CanonPath} (p : PPath)
    (h1 : st.repo = some R) (h2 : fsGet st.fs R = some .dir)
    (hout : isStart R (resolveAgainst R p) = false) :
    resolveDirectoryPath st p = .error .outsideRepository := by
  unfold resolveDirectoryPath
  rw [ensureRepository_ok h1 h2]
  simp [hout]

theorem resolveDirectoryPath_ok_dir {st : Manager} {R D : CanonPath} (p : PPath)
    (h1 : st.repo = some R) (h2 : fsGet st.fs R = some .dir)
    (hres : resolveAgainst R p = D) (hin : isStart R D = true)
    (hdir : fsGet st.fs D = some .dir) :
    resolveDirectoryPath st p = .ok D := by
  unfold resolveDirectoryPath
  rw [ensureRepository_ok h1 h2]
  simp [hres, hin, fsIsDir, hdir]

/-! ## Claim C2 -/

/-- C2: for every path whose canonical form is not contained in the
repository root (component-wise), every operation that accepts it — note
load/save/rename/delete, notebook create (directory argument)/rename/
delete, color tagging — fails with the `OutsideRepository` invalid-argument
error and leaves the state (filesystem, color store, config) untouched;
and the containment test is a component-wise subpath check, so a sibling
whose final name merely extends the root's final name is rejected. -/
theorem spec_outsideRepositoryRejected
    (st : Manager) (R : CanonPath) (p : PPath)
    (h1 : st.repo = some R) (h2 : fsGet st.fs R = some .dir)
    (h3 : st.loadedFor = some R)
    (habs : p.absolute = true)
    (hout : isStart R (normComps p.comps) = false) :
    loadNote st p = (.error .outsideRepository, st)
    ∧ (∀ content, saveNote st p content = (.error .outsideRepository, st))
    ∧ (∀ newName overwrite,
        renameNote st p newName overwrite = (.error .outsideRepository, st))
    ∧ deleteNote st p = (.error .outsideRepository, st)
    ∧ (∀ filename extension overwrite color,
        createNote st filename extension (some p) overwrite color =
          (.error .outsideRepository, st))
    ∧ (∀ name existOk color,
        createNotebook st name (some p) existOk color =
          (.error .outsideRepository, st))
    ∧ (∀ newName,
        renameNotebook st p newName = (.error .outsideRepository, st))
    ∧ (∀ recursive,
        deleteNotebook st p recursive = (.error .outsideRepository, st))
    ∧ (∀ useNotes color,
        setColorEntryOp st useNotes p color = (.error .outsideRepository, st))
    ∧ (∀ (r : CanonPath) (n s : PName), s ≠ [] →
        isStart (r ++ [n]) (r ++ [n ++ s]) = false) := by
  have hres : resolveAgainst R p = normComps p.comps := resolveAgainst_abs habs
  have hout' : isStart R (resolveAgainst R p) = false := by rw [hres]; exact hout
  have hnp := resolveNotePath_outside p h1 h2 hout'
  refine ⟨?_, ?_, ?_, ?_, ?_, ?_, ?_, ?_, ?_, ?_⟩
  · unfold loadNote; rw [hnp]
  · intro content; unfold saveNote; rw [hnp]
  · intro newName overwrite; unfold renameNote; rw [hnp]
  · unfold deleteNote; rw [hnp]
  · intro filename extension overwrite color
    unfold createNote
    rw [ensureRepository_ok h1 h2, resolveDirectory_outside p h1 h2 hout']
  · intro name existOk color
    unfold createNotebook
    rw [ensureRepository_ok h1 h2, resolveDirectory_outside p h1 h2 hout']
  · intro newName
    unfold renameNotebook
    rw [resolveDirectoryPath_outside p h1 h2 hout']
  · intro recursive
    unfold deleteNotebook
    rw [deleteNotebookFuel]
    rw [ensureRepository_ok h1 h2, resolveDirectoryPath_outside p h1 h2 hout']
  · intro useNotes color
    unfold setColorEntryOp
    rw [ensureMetadataLoaded_loaded h1 h2 h3]
    simp [ensureRepository_ok h1 h2, resolveAgainst_abs habs, hout]
  · intro r n s hs
    rw [isStart_append_same]
    simp only [isStart]
    rw [if_neg]
    intro hcon
    have hlen : n.length = n.length + s.length := by
      simpa using congrArg List.length hcon
    have hzero : s.length = 0 := by omega
    exact hs (List.length_eq_zero.1 hzero)

/-- Witness for C2 at a concrete state: `/q` lies outside repository `/r`,
and `load_note` fails with `OutsideRepository` leaving the state unchanged. -/
theorem spec_outsideRepositoryRejected_witness :
    (baseMgr.repo = some [chars "r"]
      ∧ fsGet baseMgr.fs [chars "r"] = some .dir
      ∧ baseMgr.loadedFor = some [chars "r"]
      ∧ (⟨true, [chars "q"]⟩ : PPath).absolute = true
      ∧ isStart [chars "r"] (normComps [chars "q"]) = false)
    ∧ loadNote baseMgr ⟨true, [chars "q"]⟩ = (.error .outsideRepository, baseMgr) :=
  ⟨⟨by decide, by decide, by decide, by decide, by decide⟩,
   (spec_outsideRepositoryRejected baseMgr [chars "r"] ⟨true, [chars "q"]⟩
     (by decide) (by decide) (by decide) (by decide) (by decide)).1⟩

/-! ## Claim C5 -/

/-- C5: notebook rename on the repository root fails with
`InvalidOperation` regardless of the name argument, notebook delete on the
root fails with `InvalidOperation` regardless of the recursive flag, and
neither attempt changes any state. -/
theorem spec_rootRenameDeleteRejected
    (st : Manager) (R : CanonPath) (p : PPath)
    (h1 : st.repo = some R) (h2 : fsGet st.fs R = some .dir)
    (hR : normComps R = R)
    (hres : resolveAgainst R p = R) :
    (∀ newName, renameNotebook st p newName = (.error .invalidOperation, st))
    ∧ (∀ recursive, deleteNotebook st p recursive = (.error .invalidOperation, st)) := by
  have hdp := resolveDirectoryPath_ok_dir p h1 h2 hres (isStart_refl R) h2
  constructor
  · intro newName
    unfold renameNotebook
    rw [hdp, ensureRepository_ok h1 h2]
    simp [hR]
  · intro recursive
    unfold deleteNotebook
    rw [deleteNotebookFuel, ensureRepository_ok h1 h2, hdp]
    simp

/-- Witness for C5: rename and delete of the root `/r` of the base state. -/
theorem spec_rootRenameDeleteRejected_witness :
    (baseMgr.repo = some [chars "r"]
      ∧ fsGet baseMgr.fs [chars "r"] = some .dir
      ∧ normComps [chars "r"] = [chars "r"]
      ∧ resolveAgainst [chars "r"] ⟨true, [chars "r"]⟩ = [chars "r"])
    ∧ renameNotebook baseMgr ⟨true, [chars "r"]⟩ ⟨false, [chars "Z"]⟩ =
        (.error .invalidOperation, baseMgr)
    ∧ deleteNotebook baseMgr ⟨true, [chars "r"]⟩ true =
        (.error .invalidOperation, baseMgr) :=
  ⟨⟨by decide, by decide, by decide, by decide⟩,
   (spec_rootRenameDeleteRejected baseMgr [chars "r"] ⟨true, [chars "r"]⟩
     (by decide) (by decide) (by decide) (by decide)).1 ⟨false, [chars "Z"]⟩,
   (spec_rootRenameDeleteRejected baseMgr [chars "r"] ⟨true, [chars "r"]⟩
     (by decide) (by decide) (by decide) (by decide)).2 true⟩

/-! ## Claim C4 -/

/-- C4: deleting an existing non-empty notebook (other than the root,
whose rejection is separate) with `recursive = false` fails with the
`NotEmpty` condition and leaves the filesystem and the color store exactly
as they were. -/
theorem spec_deleteNonEmptyRejected
    (st : Manager) (R D : CanonPath) (p : PPath)
    (h1 : st.repo = some R) (h2 : fsGet st.fs R = some .dir)
    (hres : resolveAgainst R p = D) (hin : isStart R D = true)
    (hdir : fsGet st.fs D = some .dir) (hne : D ≠ R)
    (hnonempty : fsChildren st.fs D ≠ []) :
    deleteNotebook st p false = (.error .notEmpty, st) := by
  have hdp := resolveDirectoryPath_ok_dir p h1 h2 hres hin hdir
  unfold deleteNotebook
  rw [deleteNotebookFuel, ensureRepository_ok h1 h2, hdp]
  simp [hne, fsExists, hdir, fsIsDir, hnonempty]

/-- Witness for C4: `/r/C` holding one note, delete without recursion. -/
theorem spec_deleteNonEmptyRejected_witness :
    (let stW : Manager := { baseMgr with
        fs := [([chars "r"], .dir), ([chars "r", chars "C"], .dir),
               ([chars "r", chars "C", chars "x.txt"], .file [])] }
     fsChildren stW.fs [chars "r", chars "C"] ≠ []
       ∧ deleteNotebook stW ⟨true, [chars "r", chars "C"]⟩ false =
           (.error .notEmpty, stW)) := by
  refine ⟨by decide, ?_⟩
  exact spec_deleteNonEmptyRejected _ [chars "r"] [chars "r", chars "C"]
    ⟨true, [chars "r", chars "C"]⟩ (by decide) (by decide) (by decide)
    (by decide) (by decide) (by decide) (by decide)

/-! ## Claim C7 -/

theorem normalizeTheme_mem (t : Option Str) :
    normalizeTheme t = darkTheme ∨ normalizeTheme t = lightTheme := by
  cases t with
  | none => exact Or.inl rfl
  | some s =>
    simp only [normalizeTheme]
    by_cases h0 : (pyStrip s).map Char.toLower = []
    · simp [h0]
    · rw [if_neg h0]
      by_cases h1 : (pyStrip s).map Char.toLower ≠ darkTheme ∧
          (pyStrip s).map Char.toLower ≠ lightTheme
      · simp [h1]
      · rw [if_neg h1]
        push_neg at h1
        by_cases h2 : (pyStrip s).map Char.toLower = darkTheme
        · exact Or.inl h2
        · exact Or.inr (h1 h2)

theorem normalizeTheme_of_valid {s : Str}
    (h : (pyStrip s).map Char.toLower = darkTheme ∨
         (pyStrip s).map Char.toLower = lightTheme) :
    normalizeTheme (some s) = (pyStrip s).map Char.toLower := by
  simp only [normalizeTheme]
  have hne : (pyStrip s).map Char.toLower ≠ [] := by
    rcases h with h | h <;> rw [h] <;> decide
  rw [if_neg hne, if_neg (by tauto)]

theorem normalizeTheme_of_invalid {s : Str}
    (h : ¬ ((pyStrip s).map Char.toLower = darkTheme ∨
            (pyStrip s).map Char.toLower = lightTheme)) :
    normalizeTheme (some s) = darkTheme := by
  simp only [normalizeTheme]
  push_neg at h
  by_cases h0 : (pyStrip s).map Char.toLower = []
  · simp [h0]
  · rw [if_neg h0, if_pos h]

theorem setTheme_fst (st : Manager) (T : Str) :
    (setTheme st T).1 = normalizeTheme (some T) := by
  simp only [setTheme]
  split <;> rfl

/-- C7 (amended): `set_theme` stores and returns one of exactly the two
theme values — the whitespace-stripped, lowercased form of the input when
that normal form is `dark` or `light` (so case or whitespace variants of a
valid name normalize to that name), and the documented default `dark` for
every other input; and when the normalized value already matches the
persisted value, the config file is not rewritten. -/
theorem spec_setThemeNormalized
    (st : Manager) (T v : Str)
    (hsec : st.cfgHasSection = true)
    (hval : st.cfgThemeVal = some v)
    (hpref : st.preferredTheme = normalizeTheme (some v)) :
    ((setTheme st T).1 = darkTheme ∨ (setTheme st T).1 = lightTheme)
    ∧ (T = darkTheme ∨ T = lightTheme → (setTheme st T).1 = T)
    ∧ ((pyStrip T).map Char.toLower = darkTheme ∨
        (pyStrip T).map Char.toLower = lightTheme →
        (setTheme st T).1 = (pyStrip T).map Char.toLower)
    ∧ (¬ ((pyStrip T).map Char.toLower = darkTheme ∨
          (pyStrip T).map Char.toLower = lightTheme) →
        (setTheme st T).1 = darkTheme)
    ∧ (normalizeTheme (some T) = normalizeTheme (some v) →
        setTheme st T = ((setTheme st T).1, st)) := by
  refine ⟨?_, ?_, ?_, ?_, ?_⟩
  · rw [setTheme_fst]; exact normalizeTheme_mem _
  · intro h
    rw [setTheme_fst]
    rcases h with h | h <;> subst h
    · have hd : (pyStrip darkTheme).map Char.toLower = darkTheme := by decide
      rw [normalizeTheme_of_valid (Or.inl hd), hd]
    · have hl : (pyStrip lightTheme).map Char.toLower = lightTheme := by decide
      rw [normalizeTheme_of_valid (Or.inr hl), hl]
  · intro h
    rw [setTheme_fst]
    exact normalizeTheme_of_valid h
  · intro h
    rw [setTheme_fst]
    exact normalizeTheme_of_invalid h
  · intro h
    have hcond : normalizeTheme (some T) = st.preferredTheme ∧
        st.cfgHasSection = true ∧
        normalizeTheme (some (st.cfgThemeVal.getD (normalizeTheme (some T)))) =
          normalizeTheme (some T) := by
      refine ⟨by rw [h, hpref], hsec, ?_⟩
      rw [hval]
      simp only [Option.getD_some]
      exact h.symm
    rw [setTheme_fst]
    simp only [setTheme]
    rw [if_pos hcond]

/-- C7 counterexample: `"Light"` is not a member of the closed set
`{dark, light}`, yet `set_theme` stores and returns `"light"` rather than
the documented default `"dark"`. -/
theorem spec_setThemeNormalized_cx :
    (setTheme baseMgr (chars "Light")).1 = lightTheme
    ∧ chars "Light" ≠ darkTheme
    ∧ chars "Light" ≠ lightTheme
    ∧ lightTheme ≠ darkTheme := by decide

/-- Witness for C7 at the base state: setting `"light"` when `"dark"` is
persisted. -/
theorem spec_setThemeNormalized_witness :
    (baseMgr.cfgHasSection = true
      ∧ baseMgr.cfgThemeVal = some (chars "dark")
      ∧ baseMgr.preferredTheme = normalizeTheme (some (chars "dark")))
    ∧ ((setTheme baseMgr (chars "light")).1 = darkTheme ∨
       (setTheme baseMgr (chars "light")).1 = lightTheme) :=
  ⟨⟨by decide, by decide, by decide⟩,
   (spec_setThemeNormalized baseMgr (chars "light") (chars "dark")
     (by decide) (by decide) (by decide)).1⟩

/-! ## Claim C6 -/

theorem ensureMetadataLoaded_fields {st : Manager} {R : CanonPath}
    (h1 : st.repo = some R) (h2 : fsGet st.fs R = some .dir)
    (h3 : ¬ st.loadedFor = some R) :
    ∃ st', ensureMetadataLoaded st = .ok st'
      ∧ st'.fs = st.fs ∧ st'.repo = st.repo ∧ st'.cwd = st.cwd
      ∧ st'.cfgHasSection = st.cfgHasSection ∧ st'.cfgRepoVal = st.cfgRepoVal
      ∧ st'.cfgThemeVal = st.cfgThemeVal
      ∧ st'.preferredTheme = st.preferredTheme
      ∧ st'.cfgWrites = st.cfgWrites
      ∧ st'.loadedFor = some R
      ∧ st'.noteColors =
          pruneStore st.fs R (sanitizeStore ((metaGet st.metaFiles R).getD ([], [])).1)
      ∧ st'.nbColors =
          pruneStore st.fs R (sanitizeStore ((metaGet st.metaFiles R).getD ([], [])).2) := by
  simp only [ensureMetadataLoaded]
  rw [ensureRepository_ok h1 h2]
  simp only [h3, if_false]
  split
  · exact ⟨_, rfl, by simp [saveMetadata]⟩
  · exact ⟨_, rfl, by simp⟩

/-- C6: `set_repository_path` fails with `NotFound` when the candidate is
missing and `NotADirectory` when it exists as a file — in both cases the
whole state (configured root, persisted config) is unchanged; otherwise it
canonicalizes the candidate, persists the canonical path together with the
current theme in the config (one rewrite of the config file), resets the
in-memory color-metadata cache and reloads it for the new repository, and
returns the canonical path, which `get_repository_path` then reports. -/
theorem spec_setRepositoryPathLifecycle (st : Manager) (p : PPath) :
    (fsGet st.fs (resolveAgainst st.cwd p) = none →
      setRepositoryPath st p = (.error .notFound, st))
    ∧ (∀ c, fsGet st.fs (resolveAgainst st.cwd p) = some (.file c) →
      setRepositoryPath st p = (.error .notADirectory, st))
    ∧ (fsGet st.fs (resolveAgainst st.cwd p) = some .dir →
      (setRepositoryPath st p).1 = .ok (resolveAgainst st.cwd p)
      ∧ getRepositoryPath (setRepositoryPath st p).2 = some (resolveAgainst st.cwd p)
      ∧ (setRepositoryPath st p).2.cfgHasSection = true
      ∧ (setRepositoryPath st p).2.cfgRepoVal = some (resolveAgainst st.cwd p)
      ∧ (setRepositoryPath st p).2.cfgThemeVal = some st.preferredTheme
      ∧ (setRepositoryPath st p).2.cfgWrites = st.cfgWrites + 1
      ∧ (setRepositoryPath st p).2.loadedFor = some (resolveAgainst st.cwd p)
      ∧ (setRepositoryPath st p).2.noteColors =
          pruneStore st.fs (resolveAgainst st.cwd p)
            (sanitizeStore ((metaGet st.metaFiles (resolveAgainst st.cwd p)).getD ([], [])).1)
      ∧ (setRepositoryPath st p).2.nbColors =
          pruneStore st.fs (resolveAgainst st.cwd p)
            (sanitizeStore ((metaGet st.metaFiles (resolveAgainst st.cwd p)).getD ([], [])).2)
      ∧ (setRepositoryPath st p).2.fs = st.fs) := by
  refine ⟨?_, ?_, ?_⟩
  · intro h
    simp only [setRepositoryPath]
    rw [if_pos (by simp [fsExists, h])]
  · intro c h
    simp only [setRepositoryPath]
    rw [if_neg (by simp [fsExists, h]), if_pos (by simp [fsIsDir, h])]
  · intro h
    obtain ⟨st', hok, hfs, hrepo', hcwd', hsec', hrv', htv', hpt', hcw', hlf', hnc', hnb'⟩ :=
      @ensureMetadataLoaded_fields { st with
        cfgHasSection := true, cfgRepoVal := some (resolveAgainst st.cwd p),
        cfgThemeVal := some st.preferredTheme, cfgWrites := st.cfgWrites + 1,
        repo := some (resolveAgainst st.cwd p),
        noteColors := [], nbColors := [], loadedFor := none }
        (resolveAgainst st.cwd p) rfl (by simpa using h) (by simp)
    simp only [setRepositoryPath]
    rw [if_neg (by simp [fsExists, h]), if_neg (by simp [fsIsDir, h]), hok]
    exact ⟨rfl, by simpa [getRepositoryPath] using hrepo', hsec', hrv', htv', hcw', hlf',
      by simpa using hnc', by simpa using hnb', hfs⟩

/-- Witness for C6: configuring `/r2` (an existing directory) from the base
state. -/
theorem spec_setRepositoryPathLifecycle_witness :
    (let stW : Manager := { baseMgr with
        fs := [([chars "r"], .dir), ([chars "r2"], .dir)] }
     fsGet stW.fs (resolveAgainst stW.cwd ⟨true, [chars "r2"]⟩) = some .dir
       ∧ (setRepositoryPath stW ⟨true, [chars "r2"]⟩).1 = .ok [chars "r2"]) := by
  refine ⟨by decide, ?_⟩
  have hmain := (spec_setRepositoryPathLifecycle
    { baseMgr with fs := [([chars "r"], .dir), ([chars "r2"], .dir)] }
    ⟨true, [chars "r2"]⟩).2.2 (by decide)
  exact hmain.1

/-! ## Claim C8 -/

theorem mapGet_mapErase_self (m : ColorMap) (k : Str) :
    mapGet (mapErase m k) k = none := by
  induction m with
  | nil => rfl
  | cons e rest ih =>
    obtain ⟨k', v⟩ := e
    by_cases h : k' = k
    · simp [mapErase, h, ih]
    · simp [mapErase, mapGet, h, ih]

theorem sanitizeColor_head {V w : Str} (h : sanitizeColor V = some w) :
    ∃ t, w = '#' :: t := by
  simp only [sanitizeColor] at h
  split at h
  · cases h
  · split at h
    · cases h
    · by_cases hs : isStart ['#'] (pyStrip V) = true
      · rcases (isStart_iff _ _).1 hs with ⟨t, ht⟩
        rw [if_pos hs] at h
        injection h with h
        refine ⟨t.map Char.toUpper, ?_⟩
        rw [← h, ht]
        simp only [List.cons_append, List.nil_append, List.map_cons]
        rfl
      · rw [if_neg hs] at h
        injection h with h
        refine ⟨(pyStrip V).map Char.toUpper, ?_⟩
        rw [← h]
        simp only [List.map_cons]
        rfl

/-- C8: for every in-repository target path and color argument, on the
note-colors store: setting `none` removes the path's entry; a value that
fails color validation fails with `InvalidColor` and leaves the whole
state unchanged; a valid value is stored under the path's relative key
exactly as sanitized — normalized with a leading `#` (uppercased, as the
concrete `"1a2b3c" -> "#1A2B3C"` conjunct exhibits); and setting a value
whose normalized form equals the already-stored one performs no write at
all (the state, including the metadata file, is untouched). -/
theorem spec_setColorNormalized
    (st : Manager) (R : CanonPath) (p : PPath)
    (h1 : st.repo = some R) (h2 : fsGet st.fs R = some .dir)
    (h3 : st.loadedFor = some R)
    (habs : p.absolute = true)
    (hin : isStart R (normComps p.comps) = true) :
    ((setColorEntryOp st true p none).1 = .ok ()
      ∧ mapGet (setColorEntryOp st true p none).2.noteColors
          (relKey R (normComps p.comps)) = none)
    ∧ (∀ V, sanitizeColor V = none →
        setColorEntryOp st true p (some V) = (.error .invalidColor, st))
    ∧ (∀ V w, sanitizeColor V = some w →
        (setColorEntryOp st true p (some V)).1 = .ok ()
        ∧ mapGet (setColorEntryOp st true p (some V)).2.noteColors
            (relKey R (normComps p.comps)) = some w
        ∧ ∃ t, w = '#' :: t)
    ∧ (∀ V w, sanitizeColor V = some w →
        mapGet st.noteColors (relKey R (normComps p.comps)) = some w →
        setColorEntryOp st true p (some V) = (.ok (), st))
    ∧ sanitizeColor (chars "1a2b3c") = some (chars "#1A2B3C") := by
  have hcwd : resolveAgainst st.cwd p = normComps p.comps := resolveAgainst_abs habs
  refine ⟨?_, ?_, ?_, ?_, by decide⟩
  · unfold setColorEntryOp
    rw [ensureMetadataLoaded_loaded h1 h2 h3]
    by_cases hh : mapHas st.noteColors (relKey R (normComps p.comps)) = true
    · simp [ensureRepository_ok h1 h2, hcwd, hin, hh, saveMetadata, mapGet_mapErase_self]
    · simp only [Bool.not_eq_true] at hh
      simp [ensureRepository_ok h1 h2, hcwd, hin, hh]
      unfold mapHas at hh
      cases hget : mapGet st.noteColors (relKey R (normComps p.comps)) with
      | none => rfl
      | some v => rw [hget] at hh; simp at hh
  · intro V hV
    unfold setColorEntryOp
    rw [ensureMetadataLoaded_loaded h1 h2 h3]
    simp [ensureRepository_ok h1 h2, hcwd, hin, hV]
  · intro V w hV
    unfold setColorEntryOp
    rw [ensureMetadataLoaded_loaded h1 h2 h3]
    by_cases hsame : mapGet st.noteColors (relKey R (normComps p.comps)) = some w
    · simp [ensureRepository_ok h1 h2, hcwd, hin, hV, hsame, sanitizeColor_head hV]
    · simp [ensureRepository_ok h1 h2, hcwd, hin, hV, hsame, saveMetadata,
        mapGet_mapSet, sanitizeColor_head hV]
  · intro V w hV hsame
    unfold setColorEntryOp
    rw [ensureMetadataLoaded_loaded h1 h2 h3]
    simp [ensureRepository_ok h1 h2, hcwd, hin, hV, hsame]

/-- Witness for C8: removing the (absent) color of `/r/C` in the base
state succeeds and leaves no entry. -/
theorem spec_setColorNormalized_witness :
    (baseMgr.repo = some [chars "r"]
      ∧ fsGet baseMgr.fs [chars "r"] = some .dir
      ∧ baseMgr.loadedFor = some [chars "r"]
      ∧ isStart [chars "r"] (normComps [chars "r", chars "C"]) = true)
    ∧ ((setColorEntryOp baseMgr true ⟨true, [chars "r", chars "C"]⟩ none).1 = .ok ()
      ∧ mapGet (setColorEntryOp baseMgr true ⟨true, [chars "r", chars "C"]⟩ none).2.noteColors
          (relKey [chars "r"] (normComps [chars "r", chars "C"])) = none) :=
  ⟨⟨by decide, by decide, by decide, by decide⟩,
   (spec_setColorNormalized baseMgr [chars "r"] ⟨true, [chars "r", chars "C"]⟩
     (by decide) (by decide) (by decide) (by decide) (by decide)).1⟩

/-! ## Claim C10 -/

/-- C10: the supported-extension set is enforced by every note operation,
not only create/rename: for an in-repository path with an unsupported
extension, load, save, rename (as source) and delete all fail with
`UnsupportedExtension` and leave the state unchanged — in particular load
fails this way even for an existing file; and the check lowercases the
suffix, so `.TXT`/`.MD` variants are accepted by the shared resolver (and
an accepted existing file is in fact loaded). -/
theorem spec_extensionEnforcedEverywhere
    (st : Manager) (R : CanonPath)
    (h1 : st.repo = some R) (h2 : fsGet st.fs R = some .dir) :
    (∀ p : PPath, isStart R (resolveAgainst R p) = true →
      hasSupportedExt (resolveAgainst R p) = false →
      loadNote st p = (.error .unsupportedExtension, st)
      ∧ (∀ content, saveNote st p content = (.error .unsupportedExtension, st))
      ∧ (∀ newName overwrite,
          renameNote st p newName overwrite = (.error .unsupportedExtension, st))
      ∧ deleteNote st p = (.error .unsupportedExtension, st))
    ∧ (∀ p : PPath, isStart R (resolveAgainst R p) = true →
      hasSupportedExt (resolveAgainst R p) = true →
      resolveNotePath st p = .ok (resolveAgainst R p))
    ∧ (∀ (p : PPath) (c : Str), isStart R (resolveAgainst R p) = true →
      hasSupportedExt (resolveAgainst R p) = true →
      fsGet st.fs (resolveAgainst R p) = some (.file c) →
      loadNote st p = (.ok c, st))
    ∧ hasSupportedExt [chars "r", chars "a.TXT"] = true
    ∧ hasSupportedExt [chars "r", chars "b.MD"] = true
    ∧ hasSupportedExt [chars "r", chars "c.bin"] = false := by
  refine ⟨?_, ?_, ?_, by decide, by decide, by decide⟩
  · intro p hin hext
    have hnp := resolveNotePath_unsupported p h1 h2 hin hext
    refine ⟨?_, ?_, ?_, ?_⟩
    · unfold loadNote; rw [hnp]
    · intro content; unfold saveNote; rw [hnp]
    · intro newName overwrite; unfold renameNote; rw [hnp]
    · unfold deleteNote; rw [hnp]
  · intro p hin hext
    exact resolveNotePath_ok p h1 h2 hin hext
  · intro p c hin hext hfile
    unfold loadNote
    rw [resolveNotePath_ok p h1 h2 hin hext]
    simp [hfile]

/-- Witness for C10: in a state holding `/r/a.TXT`, loading it succeeds
with its content while `/r/c.bin` is rejected by every operation. -/
theorem spec_extensionEnforcedEverywhere_witness :
    (baseMgr.repo = some [chars "r"] ∧ fsGet baseMgr.fs [chars "r"] = some .dir)
    ∧ (let stW : Manager := { baseMgr with
         fs := [([chars "r"], .dir), ([chars "r", chars "a.TXT"], .file (chars "hi"))] }
       loadNote stW ⟨true, [chars "r", chars "c.bin"]⟩ =
         (.error .unsupportedExtension, stW)
       ∧ loadNote stW ⟨true, [chars "r", chars "a.TXT"]⟩ = (.ok (chars "hi"), stW)) := by
  refine ⟨⟨by decide, by decide⟩, ?_, ?_⟩
  · exact ((spec_extensionEnforcedEverywhere _ [chars "r"] (by decide) (by decide)).1
      ⟨true, [chars "r", chars "c.bin"]⟩ (by decide) (by decide)).1
  · exact (spec_extensionEnforcedEverywhere _ [chars "r"] (by decide) (by decide)).2.2.1
      ⟨true, [chars "r", chars "a.TXT"]⟩ (chars "hi") (by decide) (by decide) (by decide)

/-! ## Claim C9 -/

theorem resolveNotePath_ok_inv {st : Manager} {note : PPath} {np : CanonPath}
    (h : resolveNotePath st note = .ok np) :
    ∃ R, ensureRepository st = .ok R ∧ np = resolveAgainst R note
      ∧ isStart R np = true ∧ hasSupportedExt np = true := by
  unfold resolveNotePath at h
  cases hr : ensureRepository st with
  | error e => rw [hr] at h; cases h
  | ok R =>
    rw [hr] at h
    dsimp only at h
    by_cases hin : isStart R (resolveAgainst R note) = true
    · rw [if_neg (by simp [hin])] at h
      by_cases hext : hasSupportedExt (resolveAgainst R note) = true
      · rw [if_neg (by simp [hext])] at h
        injection h with h
        exact ⟨R, rfl, h.symm, h ▸ hin, h ▸ hext⟩
      · rw [if_pos (by simpa using hext)] at h
        cases h
    · rw [if_pos (by simpa using hin)] at h
      cases h

theorem saveNote_ok_inv {st : Manager} {note : PPath} {content : Str}
    {q : CanonPath} {st2 : Manager}
    (h : saveNote st note content = (.ok q, st2)) :
    resolveNotePath st note = .ok q
    ∧ fsIsDir (mkdirAll st.fs q.dropLast) q = false
    ∧ st2 = { st with fs := fsSet (mkdirAll st.fs q.dropLast) q (.file content) } := by
  simp only [saveNote] at h
  cases hr : resolveNotePath st note with
  | error e => rw [hr] at h; simp at h
  | ok np =>
    rw [hr] at h
    dsimp only at h
    by_cases hd : fsIsDir (mkdirAll st.fs np.dropLast) np = true
    · rw [if_pos hd] at h
      simp at h
    · rw [if_neg hd] at h
      simp only [Prod.mk.injEq, Except.ok.injEq] at h
      obtain ⟨hq, hst⟩ := h
      subst hq
      exact ⟨rfl, by simpa using hd, hst.symm⟩

/-- C9: the create/save/load round-trip — after a successful `create_note`
returning path `p` and a successful `save_note` of content `S` at `p`,
`load_note p` returns exactly `S` (against the post-save state). -/
theorem spec_createSaveLoadRoundtrip
    (st st1 st2 : Manager) (filename : PPath) (extension S : Str)
    (p q : CanonPath)
    (hc : createNote st filename extension none false none = (.ok p, st1))
    (hs : saveNote st1 ⟨true, p⟩ S = (.ok q, st2)) :
    loadNote st2 ⟨true, p⟩ = (.ok S, st2) := by
  obtain ⟨hr, hnd, hst2⟩ := saveNote_ok_inv hs
  obtain ⟨R, hrep, hq, hin, hext⟩ := resolveNotePath_ok_inv hr
  obtain ⟨hrepo1, hdir1⟩ := ensureRepository_ok_inv hrep
  have hqR : q ≠ R := by
    intro hcon
    apply absurd hnd
    rw [hcon]
    simp only [ne_eq, Bool.not_eq_false]
    rw [fsIsDir_iff]
    exact fsGet_mkdirAll_isSome _ hdir1
  have hdir2 : fsGet st2.fs R = some .dir := by
    rw [hst2]
    show fsGet (fsSet (mkdirAll st1.fs q.dropLast) q (.file S)) R = some .dir
    rw [fsGet_fsSet_ne _ _ _ _ (Ne.symm hqR)]
    exact fsGet_mkdirAll_isSome _ hdir1
  have hrepo2 : st2.repo = some R := by rw [hst2]; exact hrepo1
  have hres2 : resolveNotePath st2 ⟨true, p⟩ = .ok q := by
    rw [hq]
    exact resolveNotePath_ok _ hrepo2 hdir2 (hq ▸ hin) (hq ▸ hext)
  have hfile : fsGet st2.fs q = some (.file S) := by
    rw [hst2]
    show fsGet (fsSet (mkdirAll st1.fs q.dropLast) q (.file S)) q = some (.file S)
    exact fsGet_fsSet_self _ _ _
  unfold loadNote
  rw [hres2]
  dsimp only
  rw [hfile]

/-- Witness for C9: in repository `/r`, create `Ideas.md`, save `"hello"`,
load it back. -/
theorem spec_createSaveLoadRoundtrip_witness :
    (createNote { baseMgr with fs := [([chars "r"], .dir)] }
        ⟨false, [chars "Ideas.md"]⟩ (chars ".txt") none false none).1 =
      .ok [chars "r", chars "Ideas.md"]
    ∧ (saveNote
        (createNote { baseMgr with fs := [([chars "r"], .dir)] }
          ⟨false, [chars "Ideas.md"]⟩ (chars ".txt") none false none).2
        ⟨true, [chars "r", chars "Ideas.md"]⟩ (chars "hello")).1 =
      .ok [chars "r", chars "Ideas.md"]
    ∧ loadNote
        (saveNote
          (createNote { baseMgr with fs := [([chars "r"], .dir)] }
            ⟨false, [chars "Ideas.md"]⟩ (chars ".txt") none false none).2
          ⟨true, [chars "r", chars "Ideas.md"]⟩ (chars "hello")).2
        ⟨true, [chars "r", chars "Ideas.md"]⟩ =
      (.ok (chars "hello"),
       (saveNote
          (createNote { baseMgr with fs := [([chars "r"], .dir)] }
            ⟨false, [chars "Ideas.md"]⟩ (chars ".txt") none false none).2
          ⟨true, [chars "r", chars "Ideas.md"]⟩ (chars "hello")).2) := by
  refine ⟨by decide, by decide, ?_⟩
  exact spec_createSaveLoadRoundtrip
    { baseMgr with fs := [([chars "r"], .dir)] }
    (createNote { baseMgr with fs := [([chars "r"], .dir)] }
      ⟨false, [chars "Ideas.md"]⟩ (chars ".txt") none false none).2
    (saveNote
      (createNote { baseMgr with fs := [([chars "r"], .dir)] }
        ⟨false, [chars "Ideas.md"]⟩ (chars ".txt") none false none).2
      ⟨true, [chars "r", chars "Ideas.md"]⟩ (chars "hello")).2
    ⟨false, [chars "Ideas.md"]⟩ (chars ".txt") (chars "hello")
    [chars "r", chars "Ideas.md"] [chars "r", chars "Ideas.md"]
    (by decide) (by decide)

/-! ## Claim C3: key geometry lemmas -/

theorem hasDoubleSlash_append (a b : Str) :
    hasDoubleSlash (a ++ '/' :: '/' :: b) = true := by
  induction a with
  | nil => simp [hasDoubleSlash]
  | cons c a' ih =>
    cases a' with
    | nil =>
      show hasDoubleSlash (c :: '/' :: '/' :: b) = true
      simp [hasDoubleSlash]
    | cons d a'' =>
      show hasDoubleSlash (c :: d :: (a'' ++ '/' :: '/' :: b)) = true
      simp only [hasDoubleSlash]
      rw [Bool.or_eq_true]
      right
      exact ih

theorem subtreeHit_self (r : Str) : subtreeHit r r = true := by
  simp [subtreeHit]

theorem subtreeHit_of_isStart {r y : Str}
    (h : isStart (r ++ ['/']) y = true) : subtreeHit r y = true := by
  unfold subtreeHit
  split
  · rfl
  · exact h

theorem subtreeHit_cases {r y : Str} (h : subtreeHit r y = true) :
    y = r ∨ isStart (r ++ ['/']) y = true := by
  unfold subtreeHit at h
  split at h
  · left; assumption
  · right; exact h

theorem subtreeHit_append (r s : Str) :
    subtreeHit r (r ++ '/' :: s) = true := by
  apply subtreeHit_of_isStart
  have hre : r ++ '/' :: s = (r ++ ['/']) ++ s := by simp
  rw [hre]
  exact isStart_append _ _

theorem subtreeHit_comparable {a b x : Str}
    (ha : subtreeHit a x = true) (hb : subtreeHit b x = true) :
    subtreeHit a b = true ∨ subtreeHit b a = true := by
  rcases subtreeHit_cases ha with hxa | hsa
  · subst hxa
    right
    exact hb
  · rcases subtreeHit_cases hb with hxb | hsb
    · subst hxb
      left
      exact ha
    · rcases Nat.le_total a.length b.length with hle | hle
      · left
        have hab : isStart (a ++ ['/']) (b ++ ['/']) = true :=
          isStart_trans_le hsa hsb (by simp [hle])
        by_cases heq : a.length = b.length
        · rcases (isStart_iff _ _).1 hab with ⟨t, ht⟩
          have hlen := congrArg List.length ht
          simp at hlen
          have htn : t = [] := List.length_eq_zero.1 (by omega)
          subst htn
          have hba : b = a := by
            have := congrArg List.dropLast ht
            simpa [List.dropLast_concat] using this
          rw [hba]
          exact subtreeHit_self a
        · apply subtreeHit_of_isStart
          exact isStart_trans_le hab (isStart_append b ['/'])
            (by simp; omega)
      · right
        have hab : isStart (b ++ ['/']) (a ++ ['/']) = true :=
          isStart_trans_le hsb hsa (by simp [hle])
        by_cases heq : b.length = a.length
        · rcases (isStart_iff _ _).1 hab with ⟨t, ht⟩
          have hlen := congrArg List.length ht
          simp at hlen
          have htn : t = [] := List.length_eq_zero.1 (by omega)
          subst htn
          have hba : a = b := by
            have := congrArg List.dropLast ht
            simpa [List.dropLast_concat] using this
          rw [hba]
          exact subtreeHit_self b
        · apply subtreeHit_of_isStart
          exact isStart_trans_le hab (isStart_append a ['/'])
            (by simp; omega)

theorem subtreeHit_no_cross {old new x : Str}
    (hno1 : subtreeHit old new = false) (hno2 : subtreeHit new old = false)
    (hx : subtreeHit new x = true) : subtreeHit old x = false := by
  by_contra hcon
  rw [Bool.not_eq_false] at hcon
  rcases subtreeHit_comparable hcon hx with h | h
  · rw [h] at hno1; cases hno1
  · rw [h] at hno2; cases hno2

theorem wfKey_under {old e : Str} (hwf : wfKey e = true)
    (h : isStart (old ++ ['/']) e = true) :
    ∃ s, e = old ++ '/' :: s ∧ s ≠ [] ∧ sufAfter old e = s := by
  rcases (isStart_iff _ _).1 h with ⟨t, ht⟩
  have he : e = old ++ '/' :: t := by simpa using ht
  unfold wfKey at hwf
  rw [Bool.and_eq_true] at hwf
  obtain ⟨hprop, hds⟩ := hwf
  rw [decide_eq_true_eq] at hprop
  obtain ⟨hne, hhead, hlast⟩ := hprop
  have ht_ne : t ≠ [] := by
    intro h0
    subst h0
    apply hlast
    rw [he]
    exact List.getLast?_concat _
  have thead : ∀ t', t = '/' :: t' → False := by
    intro t' h0
    rw [h0] at he
    rw [he] at hds
    rw [hasDoubleSlash_append] at hds
    simp at hds
  refine ⟨t, he, ht_ne, ?_⟩
  rw [he]
  unfold sufAfter
  have hdrop : (old ++ '/' :: t).drop old.length = '/' :: t := by
    have : old ++ '/' :: t = old ++ ('/' :: t) := rfl
    rw [this, List.drop_left]
  rw [hdrop]
  cases t with
  | nil => exact absurd rfl ht_ne
  | cons d t'' =>
    have hd : ¬ d = '/' := fun hh => thead t'' (by rw [hh])
    simp [List.dropWhile_cons, hd]

theorem sufAfter_self (old : Str) : sufAfter old old = [] := by
  unfold sufAfter
  rw [List.drop_length]
  rfl

theorem replFor_self (new old : Str) : replFor new old old = new := by
  simp [replFor, sufAfter_self]

theorem mem_key_unique {m : ColorMap}
    (hnd : (m.map (fun e => e.1)).Nodup)
    {e1 e2 : Str × Str} (h1 : e1 ∈ m) (h2 : e2 ∈ m) (hk : e1.1 = e2.1) :
    e1 = e2 := by
  induction m with
  | nil => simp at h1
  | cons e rest ih =>
    rw [List.map_cons, List.nodup_cons] at hnd
    rcases List.mem_cons.1 h1 with he1 | he1 <;>
      rcases List.mem_cons.1 h2 with he2 | he2
    · rw [he1, he2]
    · exfalso
      apply hnd.1
      have hek : e.1 = e2.1 := by rw [← he1]; exact hk
      rw [hek]
      exact List.mem_map.2 ⟨e2, he2, rfl⟩
    · exfalso
      apply hnd.1
      have hek : e.1 = e1.1 := by rw [← he2]; exact hk.symm
      rw [hek]
      exact List.mem_map.2 ⟨e1, he1, rfl⟩
    · exact ih hnd.2 he1 he2

/-- C3 (amended): after `_reassign_color_subtree(old, new)` — as invoked by
notebook rename and move, where neither of `old`, `new` lies in the other's
subtree and the store keys are well-formed relative paths with unique keys —
every key that was exactly `old` or `old/<suffix>` now appears as `new`
resp. `new/<suffix>` with the same value, no key at or under `old` remains,
and every key neither at/under `old` nor at/under `new` is unaffected (a
stale key at or under `new` may be overwritten by a reassigned entry). -/
theorem spec_colorSubtreeReassigned
    (oldR newR : Str) (m : ColorMap)
    (hwf : ∀ e ∈ m, wfKey e.1 = true)
    (hnd : (m.map (fun e => e.1)).Nodup)
    (hno1 : subtreeHit oldR newR = false)
    (hno2 : subtreeHit newR oldR = false) :
    (∀ v, mapGet m oldR = some v →
      mapGet (reassignColorSubtree oldR newR m).1 newR = some v)
    ∧ (∀ s v, mapGet m (oldR ++ '/' :: s) = some v →
      mapGet (reassignColorSubtree oldR newR m).1 (newR ++ '/' :: s) = some v)
    ∧ (∀ k, subtreeHit oldR k = true →
      mapGet (reassignColorSubtree oldR newR m).1 k = none)
    ∧ (∀ k, subtreeHit oldR k = false → subtreeHit newR k = false →
      mapGet (reassignColorSubtree oldR newR m).1 k = mapGet m k) := by
  have hne : ¬ oldR = newR := by
    intro h
    rw [h, subtreeHit_self] at hno1
    cases hno1
  by_cases hemp : (m.filter (fun e => subtreeHit oldR e.1)).isEmpty = true
  · have hres : (reassignColorSubtree oldR newR m).1 = m := by
      simp [reassignColorSubtree, hne, hemp]
    have hnohit : ∀ k, subtreeHit oldR k = true → mapGet m k = none := by
      intro k hk
      cases hget : mapGet m k with
      | none => rfl
      | some v =>
        exfalso
        have hmem := mapGet_some_mem hget
        have hm : (k, v) ∈ m.filter (fun e => subtreeHit oldR e.1) :=
          List.mem_filter.2 ⟨hmem, by simpa using hk⟩
        rw [List.isEmpty_iff] at hemp
        rw [hemp] at hm
        simp at hm
    refine ⟨?_, ?_, ?_, ?_⟩
    · intro v hv
      exfalso
      rw [hnohit oldR (subtreeHit_self _)] at hv
      cases hv
    · intro s v hv
      exfalso
      rw [hnohit _ (subtreeHit_append _ _)] at hv
      cases hv
    · intro k hk
      rw [hres]
      exact hnohit k hk
    · intro k _ _
      rw [hres]
  · have hres : (reassignColorSubtree oldR newR m).1 =
        mapUpdate (m.filter (fun e => !subtreeHit oldR e.1))
          ((m.filter (fun e => subtreeHit oldR e.1)).foldl
            (fun u e => mapSet u (replFor newR oldR e.1) e.2) []) := by
      simp [reassignColorSubtree, hne, hemp]
    have hdecomp : ∀ e ∈ m, subtreeHit oldR e.1 = true →
        (replFor newR oldR e.1 = newR ∧ e.1 = oldR) ∨
        ∃ s, s ≠ [] ∧ e.1 = oldR ++ '/' :: s ∧
          replFor newR oldR e.1 = newR ++ '/' :: s := by
      intro e hm hh
      rcases subtreeHit_cases hh with h | h
      · left; exact ⟨by rw [h, replFor_self], h⟩
      · right
        obtain ⟨s, hes, hsne, hsuf⟩ := wfKey_under (hwf e hm) h
        refine ⟨s, hsne, hes, ?_⟩
        simp only [replFor]
        rw [hsuf, if_neg hsne]
    have hinj : ∀ e1 ∈ m, ∀ e2 ∈ m, subtreeHit oldR e1.1 = true →
        subtreeHit oldR e2.1 = true →
        replFor newR oldR e1.1 = replFor newR oldR e2.1 → e1.1 = e2.1 := by
      intro e1 h1 e2 h2 hh1 hh2 hrepl
      rcases hdecomp e1 h1 hh1 with ⟨hr1, hk1⟩ | ⟨s1, hs1ne, hk1, hr1⟩ <;>
        rcases hdecomp e2 h2 hh2 with ⟨hr2, hk2⟩ | ⟨s2, hs2ne, hk2, hr2⟩
      · rw [hk1, hk2]
      · exfalso
        rw [hr1, hr2] at hrepl
        have hlen := congrArg List.length hrepl
        simp [List.length_append] at hlen
      · exfalso
        rw [hr1, hr2] at hrepl
        have hlen := congrArg List.length hrepl
        simp [List.length_append] at hlen
      · rw [hk1, hk2]
        rw [hr1, hr2] at hrepl
        have hs : ('/' :: s1 : Str) = '/' :: s2 := by
          exact List.append_cancel_left hrepl
        injection hs with _ hs
        rw [hs]
    have hhitsnd : (m.filter (fun e => subtreeHit oldR e.1)).Nodup :=
      (List.filter_sublist m).nodup (List.Nodup.of_map _ hnd)
    have hkeysnd : ((m.filter (fun e => subtreeHit oldR e.1)).map
        (fun e => replFor newR oldR e.1)).Nodup := by
      refine List.Nodup.map_on ?_ hhitsnd
      intro x hx y hy hxy
      have hxm := (List.mem_filter.1 hx).1
      have hxh : subtreeHit oldR x.1 = true := by
        simpa using (List.mem_filter.1 hx).2
      have hym := (List.mem_filter.1 hy).1
      have hyh : subtreeHit oldR y.1 = true := by
        simpa using (List.mem_filter.1 hy).2
      exact mem_key_unique hnd hxm hym (hinj x hxm y hym hxh hyh hxy)
    have hupd : (m.filter (fun e => subtreeHit oldR e.1)).foldl
        (fun u e => mapSet u (replFor newR oldR e.1) e.2) [] =
        (m.filter (fun e => subtreeHit oldR e.1)).map
          (fun e => (replFor newR oldR e.1, e.2)) := by
      have h1 : ((m.filter (fun e => subtreeHit oldR e.1)).map
          (fun e => (replFor newR oldR e.1, e.2))).foldl
          (fun a e => mapSet a e.1 e.2) [] =
          (m.filter (fun e => subtreeHit oldR e.1)).foldl
            (fun u e => mapSet u (replFor newR oldR e.1) e.2) [] := by
        simp only [List.foldl_map]
      rw [← h1, foldl_mapSet_eq_append]
      · simp
      · simp only [List.nil_append, List.map_map]
        simpa [Function.comp] using hkeysnd
    have hmapnd : (((m.filter (fun e => subtreeHit oldR e.1)).map
        (fun e => (replFor newR oldR e.1, e.2))).map (fun e => e.1)).Nodup := by
      simp only [List.map_map]
      simpa [Function.comp] using hkeysnd
    have hupd_new : ∀ e' ∈ (m.filter (fun e => subtreeHit oldR e.1)).map
        (fun e => (replFor newR oldR e.1, e.2)),
        subtreeHit newR e'.1 = true := by
      intro e' he'
      rcases List.mem_map.1 he' with ⟨e, hem, rfl⟩
      have hh : subtreeHit oldR e.1 = true := by
        simpa using (List.mem_filter.1 hem).2
      rcases hdecomp e (List.mem_filter.1 hem).1 hh with ⟨hr, _⟩ | ⟨s, _, _, hr⟩
      · simpa [hr] using subtreeHit_self newR
      · simpa [hr] using subtreeHit_append newR s
    refine ⟨?_, ?_, ?_, ?_⟩
    · intro v hv
      rw [hres, hupd]
      unfold mapUpdate
      apply mapGet_foldl_mapSet_mem _ _ _ _ hmapnd
      have hmem := mapGet_some_mem hv
      have hmf : (oldR, v) ∈ m.filter (fun e => subtreeHit oldR e.1) :=
        List.mem_filter.2 ⟨hmem, by simpa using subtreeHit_self oldR⟩
      have hmm : (replFor newR oldR oldR, v) ∈
          (m.filter (fun e => subtreeHit oldR e.1)).map
            (fun e => (replFor newR oldR e.1, e.2)) :=
        List.mem_map.2 ⟨(oldR, v), hmf, rfl⟩
      simpa [replFor_self] using hmm
    · intro s v hv
      rw [hres, hupd]
      unfold mapUpdate
      apply mapGet_foldl_mapSet_mem _ _ _ _ hmapnd
      have hmem := mapGet_some_mem hv
      have hhit : subtreeHit oldR (oldR ++ '/' :: s) = true := subtreeHit_append _ _
      have hmf : (oldR ++ '/' :: s, v) ∈ m.filter (fun e => subtreeHit oldR e.1) :=
        List.mem_filter.2 ⟨hmem, by simpa using hhit⟩
      have hwfk : wfKey (oldR ++ '/' :: s) = true := hwf _ hmem
      have hstart : isStart (oldR ++ ['/']) (oldR ++ '/' :: s) = true := by
        have hre : oldR ++ '/' :: s = (oldR ++ ['/']) ++ s := by simp
        rw [hre]
        exact isStart_append _ _
      obtain ⟨s', hes, hs'ne, hsuf⟩ := wfKey_under hwfk hstart
      have hss : s = s' := by
        have hc : ('/' :: s : Str) = '/' :: s' := List.append_cancel_left hes
        injection hc
      have hrepl : replFor newR oldR (oldR ++ '/' :: s) = newR ++ '/' :: s := by
        simp only [replFor]
        rw [hsuf, if_neg hs'ne, ← hss]
      have hmm : (replFor newR oldR (oldR ++ '/' :: s), v) ∈
          (m.filter (fun e => subtreeHit oldR e.1)).map
            (fun e => (replFor newR oldR e.1, e.2)) :=
        List.mem_map.2 ⟨(oldR ++ '/' :: s, v), hmf, rfl⟩
      rw [hrepl] at hmm
      exact hmm
    · intro k hk
      rw [hres, hupd]
      unfold mapUpdate
      rw [mapGet_foldl_mapSet_notmem]
      · rw [mapGet_filter (fun key => !subtreeHit oldR key) m k]
        simp [hk]
      · intro e' he' hcon
        have hnew := hupd_new e' he'
        have hoff := subtreeHit_no_cross hno1 hno2 hnew
        rw [hcon, hk] at hoff
        cases hoff
    · intro k hk hknew
      rw [hres, hupd]
      unfold mapUpdate
      rw [mapGet_foldl_mapSet_notmem]
      · rw [mapGet_filter (fun key => !subtreeHit oldR key) m k]
        simp [hk]
      · intro e' he' hcon
        have hnew := hupd_new e' he'
        rw [hcon, hknew] at hnew
        cases hnew

/-- Witness for C3 at a concrete store. -/
theorem spec_colorSubtreeReassigned_witness :
    ((∀ e ∈ ([(chars "C", chars "#111111"), (chars "C/x", chars "#222222"),
          (chars "B", chars "#333333")] : ColorMap), wfKey e.1 = true)
      ∧ subtreeHit (chars "C") (chars "Z") = false
      ∧ subtreeHit (chars "Z") (chars "C") = false)
    ∧ (∀ v, mapGet [(chars "C", chars "#111111"), (chars "C/x", chars "#222222"),
          (chars "B", chars "#333333")] (chars "C") = some v →
        mapGet (reassignColorSubtree (chars "C") (chars "Z")
          [(chars "C", chars "#111111"), (chars "C/x", chars "#222222"),
           (chars "B", chars "#333333")]).1 (chars "Z") = some v) :=
  ⟨⟨by decide, by decide, by decide⟩,
   (spec_colorSubtreeReassigned (chars "C") (chars "Z")
     [(chars "C", chars "#111111"), (chars "C/x", chars "#222222"),
      (chars "B", chars "#333333")]
     (by decide) (by decide) (by decide) (by decide)).1⟩

/-- C3 counterexample: the claim's clause "keys not under A are unaffected"
fails on the code.  Running `rename_notebook` from `C` to `A` while the
store still holds a stale tag under the key `A` — a state the manager
itself reaches, e.g. after `delete_notebook`'s empty-ancestor pruning
removes a directory `A` without dropping its tag — the reassigned entry
overwrites the key `A`, which is not `C` and not under `C/`: its value
changes from `#111111` to `#222222`. -/
theorem spec_colorSubtreeReassigned_cx :
    (renameNotebook baseMgr ⟨true, [chars "r", chars "C"]⟩ ⟨false, [chars "A"]⟩).1 =
      .ok [chars "r", chars "A"]
    ∧ subtreeHit (chars "C") (chars "A") = false
    ∧ mapGet baseMgr.nbColors (chars "A") = some (chars "#111111")
    ∧ mapGet (renameNotebook baseMgr ⟨true, [chars "r", chars "C"]⟩
        ⟨false, [chars "A"]⟩).2.nbColors (chars "A") = some (chars "#222222")
    ∧ (chars "#222222" : Str) ≠ chars "#111111" := by decide

/-! ## Claim C1: filesystem relocation lemmas -/

theorem fsRename_eq_map (fs : FS) (old new : CanonPath) :
    fsRename fs old new = fs.map (fun e => (renKey old new e.1, e.2)) := by
  unfold fsRename renKey
  congr 1
  funext e
  by_cases h : isStart old e.1 = true
  · rw [if_pos h, if_pos h]
  · rw [if_neg h, if_neg h]

theorem fsGet_fsRename_sub (fs : FS) (old new q : CanonPath)
    (hside : ∀ e ∈ fs, isStart old e.1 = false → e.1 ≠ new ++ q) :
    fsGet (fsRename fs old new) (new ++ q) = fsGet fs (old ++ q) := by
  rw [fsRename_eq_map]
  revert hside
  induction fs with
  | nil => intro _; rfl
  | cons e rest ih =>
    intro hside
    simp only [List.map_cons, fsGet]
    by_cases hs : isStart old e.1 = true
    · rcases (isStart_iff _ _).1 hs with ⟨t, ht⟩
      have hrk : renKey old new e.1 = new ++ t := by
        unfold renKey
        rw [if_pos hs, ht]
        congr 1
        exact List.drop_left _ _
      rw [hrk]
      by_cases htq : t = q
      · subst htq
        rw [if_pos rfl, if_pos ht]
      · rw [if_neg (fun hc => htq (List.append_cancel_left hc)),
            if_neg (fun hc => htq (by rw [ht] at hc; exact List.append_cancel_left hc))]
        exact ih (fun e' he' => hside e' (List.mem_cons_of_mem _ he'))
    · have hs' : isStart old e.1 = false := by simpa using hs
      have h1 : renKey old new e.1 = e.1 := by
        unfold renKey
        rw [if_neg (by simp [hs'])]
      rw [h1]
      rw [if_neg (hside e (List.mem_cons_self _ _) hs'), if_neg ?hno]
      case hno =>
        intro hc
        rw [hc, isStart_append] at hs'
        cases hs'
      exact ih (fun e' he' => hside e' (List.mem_cons_of_mem _ he'))

theorem fsGet_fsRename_out (fs : FS) (old new x : CanonPath)
    (hx_old : isStart old x = false) (hx_new : isStart new x = false) :
    fsGet (fsRename fs old new) x = fsGet fs x := by
  rw [fsRename_eq_map]
  induction fs with
  | nil => rfl
  | cons e rest ih =>
    simp only [List.map_cons, fsGet]
    by_cases hs : isStart old e.1 = true
    · rcases (isStart_iff _ _).1 hs with ⟨t, ht⟩
      have hrk : renKey old new e.1 = new ++ t := by
        unfold renKey
        rw [if_pos hs, ht]
        congr 1
        exact List.drop_left _ _
      rw [hrk]
      rw [if_neg (fun hc => by rw [← hc, isStart_append] at hx_new; cases hx_new),
          if_neg (fun hc => by rw [← hc] at hx_old; rw [hs] at hx_old; cases hx_old)]
      exact ih
    · have hs' : isStart old e.1 = false := by simpa using hs
      have h1 : renKey old new e.1 = e.1 := by
        unfold renKey
        rw [if_neg (by simp [hs'])]
      rw [h1]
      by_cases hex : e.1 = x
      · rw [if_pos hex, if_pos hex]
      · rw [if_neg hex, if_neg hex]
        exact ih

theorem fsGet_fsRename_old_none (fs : FS) (old new : CanonPath)
    (hno : isStart new old = false) :
    fsGet (fsRename fs old new) old = none := by
  rw [fsRename_eq_map]
  induction fs with
  | nil => rfl
  | cons e rest ih =>
    simp only [List.map_cons, fsGet]
    by_cases hs : isStart old e.1 = true
    · rcases (isStart_iff _ _).1 hs with ⟨t, ht⟩
      have hrk : renKey old new e.1 = new ++ t := by
        unfold renKey
        rw [if_pos hs, ht]
        congr 1
        exact List.drop_left _ _
      rw [hrk]
      rw [if_neg (fun hc => by rw [← hc, isStart_append] at hno; cases hno)]
      exact ih
    · have hs' : isStart old e.1 = false := by simpa using hs
      have h1 : renKey old new e.1 = e.1 := by
        unfold renKey
        rw [if_neg (by simp [hs'])]
      rw [h1]
      rw [if_neg (fun hc => by rw [hc, isStart_refl] at hs'; cases hs')]
      exact ih

theorem ancClosed_get {fs : FS} (hanc : ancClosedB fs = true)
    {e : CanonPath × FsNode} (he : e ∈ fs) {n : Nat}
    (hn : 0 < n) (hlt : n < e.1.length) :
    fsIsDir fs (e.1.take n) = true := by
  unfold ancClosedB at hanc
  rw [List.all_eq_true] at hanc
  have h1 := hanc e he
  rw [List.all_eq_true] at h1
  have h2 := h1 n (List.mem_range.2 hlt)
  rw [Bool.or_eq_true, Bool.or_eq_true] at h2
  rcases h2 with (h | h) | h
  · rw [decide_eq_true_eq] at h; omega
  · rw [decide_eq_true_eq] at h; omega
  · exact h

theorem fsGet_some_mem {fs : FS} {p : CanonPath} {n : FsNode}
    (h : fsGet fs p = some n) : (p, n) ∈ fs := by
  induction fs with
  | nil => simp [fsGet] at h
  | cons e rest ih =>
    obtain ⟨q, m⟩ := e
    by_cases hq : q = p
    · subst hq
      simp [fsGet] at h
      subst h
      exact List.mem_cons_self _ _
    · simp only [fsGet, if_neg hq] at h
      exact List.mem_cons_of_mem _ (ih h)

theorem reassign_unchanged {a b : Str} {m : ColorMap}
    (h : (reassignColorSubtree a b m).2 = false) :
    (reassignColorSubtree a b m).1 = m := by
  by_cases h1 : a = b
  · simp [reassignColorSubtree, h1]
  · by_cases h2 : (m.filter (fun e => subtreeHit a e.1)).isEmpty = true
    · simp [reassignColorSubtree, h1, h2]
    · exfalso
      have hx : (reassignColorSubtree a b m).2 = true := by
        simp [reassignColorSubtree, h1, h2]
      rw [h] at hx
      cases hx

theorem reassignSubtreeOp_nb {st : Manager} {R oldP newP : CanonPath}
    (h1 : st.repo = some R) (h2 : fsGet st.fs R = some .dir)
    (h3 : st.loadedFor = some R)
    (hin1 : isStart R oldP = true) (hin2 : isStart R newP = true) :
    ∃ st2, reassignSubtreeOp st false oldP newP = .ok st2
      ∧ st2.fs = st.fs ∧ st2.repo = st.repo ∧ st2.loadedFor = st.loadedFor
      ∧ st2.cwd = st.cwd
      ∧ st2.noteColors = st.noteColors
      ∧ st2.nbColors =
          (reassignColorSubtree (relKey R oldP) (relKey R newP) st.nbColors).1 := by
  unfold reassignSubtreeOp
  rw [ensureMetadataLoaded_loaded h1 h2 h3]
  dsimp only
  rw [ensureRepository_ok h1 h2]
  dsimp only
  rw [if_neg (by simp [hin1]), if_neg (by simp [hin2])]
  simp only [if_neg (show ¬ (false = true) from by decide)]
  by_cases hch : (reassignColorSubtree (relKey R oldP) (relKey R newP) st.nbColors).2 = true
  · rw [if_pos hch]
    exact ⟨_, rfl, by simp [saveMetadata]⟩
  · rw [if_neg hch]
    refine ⟨st, rfl, rfl, rfl, rfl, rfl, rfl, ?_⟩
    rw [reassign_unchanged (by simpa using hch)]

theorem reassignSubtreeOp_notes {st : Manager} {R oldP newP : CanonPath}
    (h1 : st.repo = some R) (h2 : fsGet st.fs R = some .dir)
    (h3 : st.loadedFor = some R)
    (hin1 : isStart R oldP = true) (hin2 : isStart R newP = true) :
    ∃ st2, reassignSubtreeOp st true oldP newP = .ok st2
      ∧ st2.fs = st.fs ∧ st2.repo = st.repo ∧ st2.loadedFor = st.loadedFor
      ∧ st2.cwd = st.cwd
      ∧ st2.nbColors = st.nbColors
      ∧ st2.noteColors =
          (reassignColorSubtree (relKey R oldP) (relKey R newP) st.noteColors).1 := by
  unfold reassignSubtreeOp
  rw [ensureMetadataLoaded_loaded h1 h2 h3]
  dsimp only
  rw [ensureRepository_ok h1 h2]
  dsimp only
  rw [if_neg (by simp [hin1]), if_neg (by simp [hin2])]
  simp only [eq_self_iff_true, if_true]
  by_cases hch : (reassignColorSubtree (relKey R oldP) (relKey R newP) st.noteColors).2 = true
  · rw [if_pos hch]
    exact ⟨_, rfl, by simp [saveMetadata]⟩
  · rw [if_neg hch]
    refine ⟨st, rfl, rfl, rfl, rfl, rfl, rfl, ?_⟩
    rw [reassign_unchanged (by simpa using hch)]

theorem reassignTreeColorsOp_ok {st : Manager} {R oldP newP : CanonPath}
    (h1 : st.repo = some R) (h2 : fsGet st.fs R = some .dir)
    (h3 : st.loadedFor = some R)
    (hin1 : isStart R oldP = true) (hin2 : isStart R newP = true) :
    ∃ st2, reassignTreeColorsOp st oldP newP = .ok st2
      ∧ st2.fs = st.fs
      ∧ st2.nbColors =
          (reassignColorSubtree (relKey R oldP) (relKey R newP) st.nbColors).1
      ∧ st2.noteColors =
          (reassignColorSubtree (relKey R oldP) (relKey R newP) st.noteColors).1 := by
  obtain ⟨stA, hA, hAfs, hArepo, hAlf, hAcwd, hAnotes, hAnb⟩ :=
    reassignSubtreeOp_nb h1 h2 h3 hin1 hin2
  obtain ⟨stB, hB, hBfs, hBrepo, hBlf, hBcwd, hBnb, hBnotes⟩ :=
    @reassignSubtreeOp_notes stA R oldP newP
      (by rw [hArepo]; exact h1) (by rw [hAfs]; exact h2)
      (by rw [hAlf]; exact h3) hin1 hin2
  refine ⟨stB, ?_, ?_, ?_, ?_⟩
  · unfold reassignTreeColorsOp
    rw [hA]
    dsimp only
    exact hB
  · rw [hBfs, hAfs]
  · rw [hBnb, hAnb]
  · rw [hBnotes, hAnotes]

/-- C1: the notebook move operation, for a notebook and a target parent
that resolve to canonical paths `P` and `T` inside the repository `R`:
moving the repository root is rejected; a no-op move whose target is the
notebook itself or already the notebook's parent is rejected; moving into
one's own descendant (checked via path containment) is rejected — each
rejection leaving the state untouched; and a valid move relocates the
directory with rename semantics (the whole subtree reappears under
`T / last-component-of-P`, nothing remains at `P`, every other path is
untouched) and reassigns the entire color-tag subtree from the old path
to the new path.  The rejected cases are translated from
`_handle_notebook_move_requested` (main_window.py:551-596); the
relocation core stands for the `NoteManager.move_notebook` body modelled
from spec section 4.5. -/
theorem spec_moveNotebookOperation
    (st : Manager) (R P T : CanonPath) (notebook targetDir : PPath)
    (h1 : st.repo = some R) (h2 : fsGet st.fs R = some .dir)
    (h3 : st.loadedFor = some R)
    (hP : resolveAgainst st.cwd notebook = P)
    (hT : resolveAgainst st.cwd targetDir = T)
    (hinT : isStart R T = true) :
    (P = R → moveNotebookRequested st notebook targetDir = (.rejectedRoot, st))
    ∧ (isStart R P = true → P ≠ R → (T = P ∨ T = P.dropLast) →
        moveNotebookRequested st notebook targetDir = (.rejectedNoOp, st))
    ∧ (isStart R P = true → P ≠ R → T ≠ P → T ≠ P.dropLast →
        isStart P T = true →
        moveNotebookRequested st notebook targetDir = (.rejectedDescendant, st))
    ∧ (isStart R P = true → P ≠ R → T ≠ P → T ≠ P.dropLast →
        isStart P T = false →
        fsGet st.fs P = some .dir → fsGet st.fs T = some .dir →
        fsGet st.fs (T ++ [lastComp P]) = none →
        ancClosedB st.fs = true →
        (moveNotebookRequested st notebook targetDir).1 =
            .moved (T ++ [lastComp P])
        ∧ (∀ q, fsGet (moveNotebookRequested st notebook targetDir).2.fs
            ((T ++ [lastComp P]) ++ q) = fsGet st.fs (P ++ q))
        ∧ fsGet (moveNotebookRequested st notebook targetDir).2.fs P = none
        ∧ (∀ x, isStart P x = false → isStart (T ++ [lastComp P]) x = false →
            fsGet (moveNotebookRequested st notebook targetDir).2.fs x =
              fsGet st.fs x)
        ∧ (moveNotebookRequested st notebook targetDir).2.nbColors =
            (reassignColorSubtree (relKey R P)
              (relKey R (T ++ [lastComp P])) st.nbColors).1
        ∧ (moveNotebookRequested st notebook targetDir).2.noteColors =
            (reassignColorSubtree (relKey R P)
              (relKey R (T ++ [lastComp P])) st.noteColors).1) := by
  refine ⟨?_, ?_, ?_, ?_⟩
  · intro hPR
    subst hPR
    unfold moveNotebookRequested
    rw [h1]
    dsimp only
    rw [hP, hT]
    rw [if_neg (by simp [isStart_refl, hinT]), if_pos rfl]
  · intro hPn hPR hno
    unfold moveNotebookRequested
    rw [h1]
    dsimp only
    rw [hP, hT]
    rw [if_neg (by simp [hPn, hinT]), if_neg hPR, if_pos hno]
  · intro hPn hPR hTP hTPar hdesc
    unfold moveNotebookRequested
    rw [h1]
    dsimp only
    rw [hP, hT]
    rw [if_neg (by simp [hPn, hinT]), if_neg hPR,
        if_neg (by push_neg; exact ⟨hTP, hTPar⟩), if_pos hdesc]
  · intro hPn hPR hTP hTPar hdesc hsrc htgt hnew hanc
    have hNewIn : isStart R (T ++ [lastComp P]) = true := isStart_extend hinT _
    have hfPR : isStart P R = false := by
      by_cases b : isStart P R = true
      · exact absurd (isStart_antisymm b hPn) hPR
      · simpa using b
    have hfNR : isStart (T ++ [lastComp P]) R = false := by
      by_cases b : isStart (T ++ [lastComp P]) R = true
      · have l1 := isStart_length b
        have l2 := isStart_length hinT
        simp only [List.length_append, List.length_cons, List.length_nil] at l1
        omega
      · simpa using b
    have hfNP : isStart (T ++ [lastComp P]) P = false := by
      have hnew' := hnew
      generalize hNdef : T ++ [lastComp P] = N at hnew' ⊢
      by_cases b : isStart N P = true
      · exfalso
        rcases (isStart_iff _ _).1 b with ⟨u, hu⟩
        cases u with
        | nil =>
          rw [List.append_nil] at hu
          rw [← hu, hsrc] at hnew'
          cases hnew'
        | cons c u' =>
          have hm := fsGet_some_mem hsrc
          have hlen : N.length < P.length := by rw [hu]; simp
          have hpos : 0 < N.length := by rw [← hNdef]; simp
          have hdir := ancClosed_get hanc hm hpos hlen
          have htake : P.take N.length = N := by rw [hu, List.take_left]
          rw [htake, fsIsDir_iff] at hdir
          rw [hdir] at hnew'
          cases hnew'
      · simpa using b
    have hside : ∀ q, ∀ e ∈ st.fs, isStart P e.1 = false →
        e.1 ≠ (T ++ [lastComp P]) ++ q := by
      intro q e he _ hc
      cases q with
      | nil =>
        rw [List.append_nil] at hc
        exact absurd hc ((fsGet_eq_none_iff st.fs _).1 hnew e he)
      | cons c q' =>
        have hlen : (T ++ [lastComp P]).length < e.1.length := by
          rw [hc]; simp
        have hpos : 0 < (T ++ [lastComp P]).length := by simp
        have hdir := ancClosed_get hanc he hpos hlen
        rw [hc, List.take_left, fsIsDir_iff] at hdir
        rw [hdir] at hnew
        cases hnew
    obtain ⟨st2, heq, hfs2, hnb2, hnotes2⟩ :=
      @reassignTreeColorsOp_ok
        { st with fs := fsRename st.fs P (T ++ [lastComp P]) }
        R P (T ++ [lastComp P])
        h1
        (by
          show fsGet (fsRename st.fs P (T ++ [lastComp P])) R = some .dir
          rw [fsGet_fsRename_out _ _ _ _ hfPR hfNR]
          exact h2)
        h3 hPn hNewIn
    have hrun : moveNotebookRequested st notebook targetDir =
        (.moved (T ++ [lastComp P]), st2) := by
      unfold moveNotebookRequested
      rw [h1]
      dsimp only
      rw [hP, hT]
      rw [if_neg (by simp [hPn, hinT]), if_neg hPR,
          if_neg (by push_neg; exact ⟨hTP, hTPar⟩), if_neg (by simp [hdesc]),
          ensureRepository_ok h1 h2]
      dsimp only
      rw [if_neg (by simp [fsExists, hsrc]), if_neg (by simp [fsExists, htgt]),
          if_neg (by simp [fsIsDir, htgt]), if_neg (by simp [hNewIn]),
          if_neg (by simp [fsExists, hnew])]
      rw [← h1, heq]
    rw [hrun]
    refine ⟨rfl, ?_, ?_, ?_, ?_, ?_⟩
    · intro q
      show fsGet st2.fs ((T ++ [lastComp P]) ++ q) = fsGet st.fs (P ++ q)
      rw [hfs2]
      show fsGet (fsRename st.fs P (T ++ [lastComp P])) ((T ++ [lastComp P]) ++ q) =
        fsGet st.fs (P ++ q)
      exact fsGet_fsRename_sub _ _ _ _ (hside q)
    · show fsGet st2.fs P = none
      rw [hfs2]
      exact fsGet_fsRename_old_none _ _ _ hfNP
    · intro x hx1 hx2
      show fsGet st2.fs x = fsGet st.fs x
      rw [hfs2]
      exact fsGet_fsRename_out _ _ _ _ hx1 hx2
    · exact hnb2
    · exact hnotes2

/-- Witness for C1: moving `/r/A` (holding one note) into `/r/B`. -/
theorem spec_moveNotebookOperation_witness :
    (let stW : Manager := { baseMgr with
        fs := [([chars "r"], .dir), ([chars "r", chars "A"], .dir),
               ([chars "r", chars "A", chars "n.txt"], .file []),
               ([chars "r", chars "B"], .dir)] }
     ancClosedB stW.fs = true
       ∧ (moveNotebookRequested stW ⟨true, [chars "r", chars "A"]⟩
            ⟨true, [chars "r", chars "B"]⟩).1 =
           .moved [chars "r", chars "B", chars "A"]) := by
  refine ⟨by decide, ?_⟩
  have h := ((spec_moveNotebookOperation
    { baseMgr with
        fs := [([chars "r"], .dir), ([chars "r", chars "A"], .dir),
               ([chars "r", chars "A", chars "n.txt"], .file []),
               ([chars "r", chars "B"], .dir)] }
    [chars "r"] [chars "r", chars "A"] [chars "r", chars "B"]
    ⟨true, [chars "r", chars "A"]⟩ ⟨true, [chars "r", chars "B"]⟩
    (by decide) (by decide) (by decide) (by decide) (by decide)
    (by decide)).2.2.2
    (by decide) (by decide) (by decide) (by decide) (by decide) (by decide)
    (by decide) (by decide) (by decide)).1
  exact h.trans (by decide)
